import Mathlib

/-!
Verification of the sparse Merkle tree core of `sparse_risc0`
(`src/sparse_tree/src/smt.rs`).

The Rust code is shallowly embedded:

* the leaf/digest type `F` is a type parameter with decidable equality
  (matching the `FieldExt` bound: `Clone + Eq + Copy + Default`);
* `BTreeMap<u64, F>` is modelled as an association list with
  insert-shadowing (`minsert` conses, `mget` takes the first match);
  the code only ever uses `get` and `insert` on the node map, so this is
  an exact model of those operations;
* `BTreeSet<u64>` (the per-level dirty sets, iterated in ascending
  order) is modelled as a strictly sorted `List Nat` with ordered
  deduplicating insertion `sinsert`;
* the hasher `FieldHasher<F, 2>` is a function `F → F → Option F`
  (`none` is a hasher error, propagated like the Rust `?`);
* fallible operations return `Except MErr _`; Rust panics
  (`assert!`, out-of-bounds indexing, `unwrap`) are modelled as
  distinguished error outcomes so that they stay observable;
* `u64`/`usize` arithmetic is modelled on `Nat`; none of the verified
  claims exercises wrap-around of 64-bit quantities.
-/

namespace SparseRisc0

/-- Error/abort outcomes of the tree operations.  `parentNotFound`
models the `bail!("parent not found")`, `hasherErr` a propagated hasher
error, `hashMismatch` the `assert!(expected == got)` failure in
`PartialTree::verify`, `heightOverflow` the `assert!(tree_height <= N)`
failure in `SparseMerkleTree::new`, and `idxPanic` an out-of-bounds
slice index panic. -/
inductive MErr where
  | parentNotFound
  | hasherErr
  | hashMismatch
  | heightOverflow
  | idxPanic
deriving DecidableEq, Repr

/-- Association-list model of `BTreeMap<u64, F>`: `insert` shadows. -/
abbrev Map (F : Type) : Type := List (Nat × F)

namespace Map

/-- `BTreeMap::get`: first (most recent) binding wins. -/
def mget {F : Type} : Map F → Nat → Option F
  | [], _ => none
  | (k', v) :: t, k => if k' = k then some v else mget t k

/-- `BTreeMap::insert`: shadow any previous binding. -/
def minsert {F : Type} (m : Map F) (k : Nat) (v : F) : Map F :=
  (k, v) :: m

end Map

open Map

/-- Ordered deduplicating insertion, modelling `BTreeSet::insert`
together with the set's ascending iteration order. -/
def sinsert (a : Nat) : List Nat → List Nat
  | [] => [a]
  | b :: t =>
    if a < b then a :: b :: t
    else if a = b then b :: t
    else b :: sinsert a t

/-! ### Tree index arithmetic (`smt.rs`, bottom of file) -/

/-- `fn parent(index) -> Option<u64>`: `(index - 1) >> 1` for positive
indices. -/
def parentIdx (i : Nat) : Option Nat :=
  if i > 0 then some ((i - 1) / 2) else none

/-- `fn left_child`. -/
def leftChild (i : Nat) : Nat := 2 * i + 1

/-- `fn right_child`. -/
def rightChild (i : Nat) : Nat := 2 * i + 2

/-- `fn is_left_child`: odd indices are left children. -/
def isLeftChild (i : Nat) : Bool := i % 2 = 1

/-- `fn sibling` on a node already known to be non-root. -/
def sibIdx (i : Nat) : Nat :=
  if i % 2 = 1 then i + 1 else i - 1

/-- `fn convert_index_to_last_level(index, height) = index + (1 << height) - 1`. -/
def toLastLevel (index height : Nat) : Nat :=
  index + 2 ^ height - 1

/-- Floor base-2 logarithm, realized structurally (with an explicit
halving bound) so that concrete instances reduce inside the kernel;
`flog2_eq_log2` identifies it with `Nat.log2`. -/
def flog2Aux : Nat → Nat → Nat
  | 0, _ => 0
  | fuel + 1, n => if 2 ≤ n then flog2Aux fuel (n / 2) + 1 else 0

/-- Floor base-2 logarithm (`usize::leading_zeros` arithmetic). -/
def flog2 (n : Nat) : Nat := flog2Aux n n

/-- `usize::next_power_of_two` (0 and 1 map to 1). -/
def nextPow2 (x : Nat) : Nat :=
  if x ≤ 1 then 1 else 2 ^ (flog2 (x - 1) + 1)

/-- `ark_std::log2`: `0` for `0`, the exact logarithm on powers of two,
and `floor(log2 x) + 1` otherwise (computed there with
`leading_zeros`); i.e. the ceiling logarithm. -/
def rlog2 (x : Nat) : Nat :=
  if x = 0 then 0
  else if 2 ^ flog2 x = x then flog2 x
  else flog2 x + 1

/-! ### `gen_empty_hashes` -/

/-- `gen_empty_hashes`: pushes the running default `N` times, hashing
it with itself after each push; note the hash is computed (and any
error propagated) even on the final iteration whose result is unused. -/
def genEmptyHashes {F : Type} (hasher : F → F → Option F) :
    Nat → F → Option (List F)
  | 0, _ => some []
  | n + 1, d =>
    match hasher d d with
    | none => none
    | some d' => (genEmptyHashes hasher n d').map (d :: ·)

/-! ### `SparseMerkleTree` -/

/-- The `SparseMerkleTree` state: the materialized node map and the
empty-hash ladder (the `PhantomData` hasher marker is dropped). -/
structure Smt (F : Type) where
  tree : Map F
  empty_hashes : List F
deriving DecidableEq

/-- `SparseMerkleTree::root`: `tree.get(&0).cloned().unwrap_or(empty_hashes.last().unwrap())`.
The `unwrap_or` argument is evaluated eagerly in Rust, so an empty
ladder panics (`none`) even when node `0` is materialized. -/
def Smt.root {F : Type} (s : Smt F) : Option F :=
  match s.empty_hashes.getLast? with
  | none => none
  | some e => some ((mget s.tree 0).getD e)

/-- First phase of `insert_batch`: write each leaf at
`last_level_index + i` and collect the parents as dirty indices,
bailing with `parent not found` if a leaf lands on the root. -/
def insertLeaves {F : Type} (lli : Nat) :
    Map F → List Nat → List (Nat × F) → Except MErr (Map F × List Nat)
  | t, acc, [] => .ok (t, acc)
  | t, acc, (k, v) :: rest =>
    let ti := lli + k
    let t' := minsert t ti v
    match parentIdx ti with
    | some p => insertLeaves lli t' (sinsert p acc) rest
    | none => .error .parentNotFound

/-- Inner loop of one level of `insert_batch`: for each dirty index
(in ascending order) hash the two children (substituting the level's
empty hash for missing ones), store the result, and record the parent;
`parent(i) == None` breaks out of the loop. -/
def insertLevel {F : Type} [DecidableEq F] (hasher : F → F → Option F) (e : F) :
    Map F → List Nat → List Nat → Except MErr (Map F × List Nat)
  | t, [], acc => .ok (t, acc)
  | t, i :: rest, acc =>
    let l := (mget t (leftChild i)).getD e
    let r := (mget t (rightChild i)).getD e
    match hasher l r with
    | none => .error .hasherErr
    | some hv =>
      let t' := minsert t i hv
      match parentIdx i with
      | none => .ok (t', acc)
      | some p => insertLevel hasher e t' rest (sinsert p acc)

/-- The `for level in 0..N` loop of `insert_batch`; `empty_hashes[level]`
is a panicking index. -/
def insertLevels {F : Type} [DecidableEq F] (hasher : F → F → Option F)
    (eh : List F) : List Nat → Map F → List Nat → Except MErr (Map F)
  | [], t, _ => .ok t
  | level :: rest, t, idxs =>
    match eh.get? level with
    | none => .error .idxPanic
    | some e =>
      match insertLevel hasher e t idxs [] with
      | .error er => .error er
      | .ok (t', next) => insertLevels hasher eh rest t' next

/-- `SparseMerkleTree::insert_batch`. -/
def insertBatch {F : Type} [DecidableEq F] (N : Nat)
    (hasher : F → F → Option F) (s : Smt F) (leaves : List (Nat × F)) :
    Except MErr (Smt F) :=
  match insertLeaves (2 ^ N - 1) s.tree [] leaves with
  | .error e => .error e
  | .ok (t, idxs) =>
    match insertLevels hasher s.empty_hashes (List.range N) t idxs with
    | .error e => .error e
    | .ok t' => .ok { s with tree := t' }

/-- `SparseMerkleTree::new`: the height assertion, then the ladder,
then `insert_batch` on the empty node map. -/
def newSmt {F : Type} [DecidableEq F] (N : Nat)
    (hasher : F → F → Option F) (leaves : List (Nat × F)) (emptyLeaf : F) :
    Except MErr (Smt F) :=
  let lastLevelSize := nextPow2 leaves.length
  let treeSize := 2 * lastLevelSize - 1
  if rlog2 treeSize ≤ N then
    match genEmptyHashes hasher N emptyLeaf with
    | none => .error .hasherErr
    | some eh => insertBatch N hasher ⟨[], eh⟩ leaves
  else .error .heightOverflow

/-! ### `PartialTree` and `batch_prove` -/

/-- The `PartialTree` struct. -/
structure PartialTree (F : Type) where
  tree : Map F
  empty_hashes : List F
  leaves : List Nat
  root : F
deriving DecidableEq

/-- One leaf-to-root walk of `batch_prove`: starting at a leaf node and
level 0, record the current node and its sibling into the partial map
whenever their (materialized-or-empty) value differs from the level's
empty hash, then move to the parent.  The Rust `while !is_root` loop
terminates because `parent(node) < node`; the recursion is realized
structurally with the explicit bound `fuel`, which callers instantiate
with `node + 1` (always sufficient, since the node strictly
decreases). -/
def walkF {F : Type} [DecidableEq F] (t : Map F) (eh : List F) :
    Nat → Map F → Nat → Nat → Option (Map F)
  | 0, pt, node, _ => if node = 0 then some pt else none
  | fuel + 1, pt, node, level =>
    if node = 0 then some pt
    else
      match eh.get? level with
      | none => none
      | some e =>
        let sib := sibIdx node
        let cur := (mget t node).getD e
        let sv := (mget t sib).getD e
        let pt₁ := if cur ≠ e then minsert pt node cur else pt
        let pt₂ := if sv ≠ e then minsert pt₁ sib sv else pt₁
        walkF t eh fuel pt₂ ((node - 1) / 2) (level + 1)

/-- The walks of `batch_prove` over every requested leaf slot. -/
def walkAll {F : Type} [DecidableEq F] (N : Nat) (t : Map F) (eh : List F) :
    Map F → List Nat → Option (Map F)
  | pt, [] => some pt
  | pt, leaf :: rest =>
    let ti := toLastLevel leaf N
    match walkF t eh (ti + 1) pt ti 0 with
    | none => none
    | some pt' => walkAll N t eh pt' rest

/-- `SparseMerkleTree::batch_prove`: the partial tree carries the full
tree's ladder, the root (computed up front), the requested leaf slots
in order, and the materialized sub-skeleton collected by the walks;
`none` models a panic (ladder indexing out of bounds, or
`empty_hashes.last().unwrap()` inside `root`). -/
def batchProve {F : Type} [DecidableEq F] (N : Nat) (s : Smt F)
    (leaves : List Nat) : Option (PartialTree F) :=
  match s.root with
  | none => none
  | some r =>
    match walkAll N s.tree s.empty_hashes [] leaves with
    | none => none
    | some ptm =>
      some { tree := ptm, empty_hashes := s.empty_hashes,
             leaves := leaves, root := r }

/-! ### `PartialTree::verify` -/

/-- A value committed to the zk-guest journal by `env::commit`. -/
inductive Commit (F : Type) where
  | digest (f : F)
  | slots (l : List Nat)

/-- The initial frontier of `verify`: parents of the attested leaf
nodes, bailing with `parent not found` on a root-level leaf. -/
def initFrontier (N : Nat) :
    List Nat → List Nat → Except MErr (List Nat)
  | acc, [] => .ok acc
  | acc, i :: rest =>
    match parentIdx (2 ^ N - 1 + i) with
    | some p => initFrontier N (sinsert p acc) rest
    | none => .error .parentNotFound

/-- Inner loop of one level of `verify`: for each frontier index read
both children and the stored parent (substituting the level's / the
next level's empty hash for missing entries), recompute the parent and
`assert!` equality; `parent(i) == None` breaks out of the loop. -/
def verifyLevel {F : Type} [DecidableEq F] (hasher : F → F → Option F)
    (ptm : Map F) (eC eP : F) :
    List Nat → List Nat → Except MErr (List Nat)
  | [], acc => .ok acc
  | i :: rest, acc =>
    let l := (mget ptm (leftChild i)).getD eC
    let r := (mget ptm (rightChild i)).getD eC
    let got := (mget ptm i).getD eP
    match hasher l r with
    | none => .error .hasherErr
    | some expected =>
      if expected = got then
        match parentIdx i with
        | none => .ok acc
        | some p => verifyLevel hasher ptm eC eP rest (sinsert p acc)
      else .error .hashMismatch

/-- The `for level in 0..(N - 1)` loop of `verify`. -/
def verifyLevels {F : Type} [DecidableEq F] (hasher : F → F → Option F)
    (ptm : Map F) (eh : List F) :
    List Nat → List Nat → Except MErr Unit
  | [], _ => .ok ()
  | level :: rest, idxs =>
    match eh.get? level, eh.get? (level + 1) with
    | some eC, some eP =>
      match verifyLevel hasher ptm eC eP idxs [] with
      | .error e => .error e
      | .ok next => verifyLevels hasher ptm eh rest next
    | _, _ => .error .idxPanic

/-- `PartialTree::verify`.  The first component is the zk-guest
journal: `env::commit(&self.root); env::commit(&self.leaves)`, emitted
unconditionally before the checks.  The second component is the
verification outcome. -/
def PartialTree.verify {F : Type} [DecidableEq F] (N : Nat)
    (pt : PartialTree F) (hasher : F → F → Option F) :
    List (Commit F) × Except MErr Unit :=
  ([.digest pt.root, .slots pt.leaves],
    match initFrontier N [] pt.leaves with
    | .error e => .error e
    | .ok idxs => verifyLevels hasher pt.tree pt.empty_hashes
        (List.range (N - 1)) idxs)

/-! ### `generate_membership_path` -/

/-- Write at a position of a `heapless::Vec` through `IndexMut`; out of
bounds is a panic (`none`). -/
def setNth {α : Type} (l : List α) (i : Nat) (a : α) : Option (List α) :=
  if i < l.length then some (l.set i a) else none

/-- The `while !is_root` loop of `generate_membership_path`, assigning
`path[level]` at each step.  Fuel realizes the terminating recursion as
in `walkF`. -/
def genPathGo {F : Type} (t : Map F) (eh : List F) :
    Nat → List (F × F) → Nat → Nat → Option (List (F × F))
  | 0, path, node, _ => if node = 0 then some path else none
  | fuel + 1, path, node, level =>
    if node = 0 then some path
    else
      match eh.get? level with
      | none => none
      | some e =>
        let sib := sibIdx node
        let cur := (mget t node).getD e
        let sv := (mget t sib).getD e
        let entry := if isLeftChild node then (cur, sv) else (sv, cur)
        match setNth path level entry with
        | none => none
        | some path' => genPathGo t eh fuel path' ((node - 1) / 2) (level + 1)

/-- `SparseMerkleTree::generate_membership_path`: the path vector
starts empty (`heapless::Vec::new()`) and is only ever written through
`path[level] = …`. -/
def genMembershipPath {F : Type} (N : Nat) (s : Smt F) (index : Nat) :
    Option (List (F × F)) :=
  let ti := toLastLevel index N
  genPathGo s.tree s.empty_hashes (ti + 1) [] ti 0

/-! ### Semantic (specification-level) functions

These are *not* translations of Rust code; they are the mathematical
values the tree operations are proved to compute: the empty-hash chain
and the Merkle hash of a subtree under a total leaf-node valuation. -/

/-- An infallible hasher, as used by every concrete instantiation in
the repository (the SHA-256 `FieldHasher` always returns `Ok`). -/
def liftH {F : Type} (h : F → F → F) : F → F → Option F :=
  fun a b => some (h a b)

/-- The canonical empty hash at ladder level `ℓ`:
`default_leaf` hashed with itself `ℓ` times. -/
def emptyH {F : Type} (h : F → F → F) (d : F) : Nat → F
  | 0 => d
  | ℓ + 1 => h (emptyH h d ℓ) (emptyH h d ℓ)

/-- The empty-hash ladder as a list of length `N`. -/
def ladder {F : Type} (h : F → F → F) (d : F) (N : Nat) : List F :=
  (List.range N).map (emptyH h d)

/-- Merkle hash of the height-`ℓ` subtree rooted at node index `i`,
under the total leaf-node valuation `g` (evaluated at the node indices
of the bottom level of that subtree). -/
def subH {F : Type} (h : F → F → F) (g : Nat → F) : Nat → Nat → F
  | 0, i => g i
  | ℓ + 1, i => h (subH h g ℓ (leftChild i)) (subH h g ℓ (rightChild i))

/-- The leaf-node valuation determined by a slot map `M` at height `N`
over default `d`: leaf node `j` (at depth `N`, so `j + 1 ∈ [2^N, 2^(N+1))`)
carries the value of slot `j + 1 - 2^N`, defaulting to `d`. -/
def leafFn {F : Type} (N : Nat) (d : F) (M : Map F) : Nat → F :=
  fun j => (mget M (j + 1 - 2 ^ N)).getD d

/-- Iterating a fallible hasher on the running default: `none` exactly
when some ladder hash fails. -/
def hIter {F : Type} (hasher : F → F → Option F) : Nat → F → Option F
  | 0, d => some d
  | n + 1, d =>
    match hasher d d with
    | none => none
    | some d' => hIter hasher n d'

/-- `i` sits at depth `dpt` of the heap. -/
def inDepth (dpt i : Nat) : Prop :=
  2 ^ dpt ≤ i + 1 ∧ i + 1 < 2 ^ (dpt + 1)


/-- Value of node `i` as read by the code at ladder level `ℓ`:
materialized, or the level's empty hash. -/
def nval {F : Type} (h : F → F → F) (d : F) (t : Map F) (ℓ i : Nat) : F :=
  (mget t i).getD (emptyH h d ℓ)

/-- All nodes of depth `N - ℓ` carry (materialized or by the empty
default) the Merkle hash of their subtree under `g`. -/
def LevelOK {F : Type} (h : F → F → F) (d : F) (N : Nat)
    (t : Map F) (g : Nat → F) (ℓ : Nat) : Prop :=
  ∀ i, inDepth (N - ℓ) i → nval h d t ℓ i = subH h g ℓ i

/-- Full-tree invariant: every proper level is correct, and the root
is either materialized with the full Merkle hash or absent with an
all-default leaf valuation. -/
def TreeOK {F : Type} (h : F → F → F) (d : F) (N : Nat)
    (t : Map F) (g : Nat → F) : Prop :=
  (∀ ℓ, ℓ < N → LevelOK h d N t g ℓ) ∧
  (mget t 0 = some (subH h g N 0) ∨
    (mget t 0 = none ∧ ∀ j, inDepth N j → g j = d))


/-- Every entry of the partial map is the canonical (non-empty)
materialized-or-empty value of the full tree at the node's level. -/
def Sound {F : Type} (h : F → F → F) (d : F) (N : Nat)
    (t ptm : Map F) : Prop :=
  ∀ j v, mget ptm j = some v →
    ∃ ℓ, ℓ < N ∧ inDepth (N - ℓ) j ∧ v = nval h d t ℓ j ∧ v ≠ emptyH h d ℓ

/-- The partial map reads back (with the level's empty default)
exactly what the full tree reads at node `j`. -/
def AgreeAt {F : Type} (h : F → F → F) (d : F) (t ptm : Map F)
    (ℓ j : Nat) : Prop :=
  (mget ptm j).getD (emptyH h d ℓ) = nval h d t ℓ j

/-- The loop body of the `batch_prove` walk at one node: conditionally
record the current node and its sibling. -/
def proveStep {F : Type} [DecidableEq F] (t pt : Map F) (e : F)
    (node : Nat) : Map F :=
  if (mget t (sibIdx node)).getD e ≠ e then
    minsert
      (if (mget t node).getD e ≠ e then
        minsert pt node ((mget t node).getD e) else pt)
      (sibIdx node) ((mget t (sibIdx node)).getD e)
  else
    if (mget t node).getD e ≠ e then
      minsert pt node ((mget t node).getD e) else pt

/-- 1-based ancestor arithmetic: the `m`-fold parent of `j` is
`(j+1)/2^m - 1`. -/
def anc (m j : Nat) : Nat := (j + 1) / 2 ^ m - 1

/-- The leaf valuation after a batch `M`: batch values override `g`. -/
def updG {F : Type} (N : Nat) (M : Map F) (g : Nat → F) : Nat → F :=
  fun j => (mget M (j + 1 - 2 ^ N)).getD (g j)

/-- Iterated `insert_batch`: the specification-level harness for
stating insertion-order independence over batch sequences. -/
def applyBatches {F : Type} [DecidableEq F] (N : Nat)
    (hasher : F → F → Option F) : Smt F → List (Map F) → Except MErr (Smt F)
  | s, [] => .ok s
  | s, b :: rest =>
    match insertBatch N hasher s b with
    | .error e => .error e
    | .ok s' => applyBatches N hasher s' rest

/-- The leaf valuation after a sequence of batches. -/
def foldG {F : Type} (N : Nat) : List (Map F) → (Nat → F) → (Nat → F)
  | [], g => g
  | b :: rest, g => foldG N rest (updG N b g)

/-- The combined slot map of a batch sequence; later batches are put
in front so that `mget` prefers the latest write. -/
def combined {F : Type} : List (Map F) → Map F
  | [] => []
  | b :: rest => combined rest ++ b

/-- All recorded partial-tree entries differ from the ladder element
of their depth-determined level (`batch_prove` minimality). -/
def GuardOK {F : Type} (eh : List F) (N : Nat) (ptm : Map F) : Prop :=
  ∀ j v, mget ptm j = some v →
    ∃ ℓ e, ℓ < N ∧ inDepth (N - ℓ) j ∧ eh.get? ℓ = some e ∧ v ≠ e

/-! ### SHA-256 (FIPS 180-4), for the concrete SHA-256 scenarios

The digest type `[u8; 32]` is modelled as `List Nat` of byte values;
32-bit words are `Nat` reduced mod `2^32` wherever `u32` arithmetic
wraps.  The `FieldHasher` impl for `sha2::Sha256` hashes the
concatenation of the two child digests. -/

/-- 32-bit wrap-around. -/
def add32 (x y : Nat) : Nat := (x + y) % 4294967296

/-- 32-bit right rotation (input assumed reduced). -/
def rotr32 (n x : Nat) : Nat :=
  ((x >>> n) ||| (x <<< (32 - n))) % 4294967296

/-- 32-bit bitwise complement. -/
def not32 (x : Nat) : Nat := x ^^^ 4294967295

def ch32 (x y z : Nat) : Nat := (x &&& y) ^^^ (not32 x &&& z)

def maj32 (x y z : Nat) : Nat := (x &&& y) ^^^ (x &&& z) ^^^ (y &&& z)

def bsig0 (x : Nat) : Nat := rotr32 2 x ^^^ rotr32 13 x ^^^ rotr32 22 x

def bsig1 (x : Nat) : Nat := rotr32 6 x ^^^ rotr32 11 x ^^^ rotr32 25 x

def ssig0 (x : Nat) : Nat := rotr32 7 x ^^^ rotr32 18 x ^^^ (x >>> 3)

def ssig1 (x : Nat) : Nat := rotr32 17 x ^^^ rotr32 19 x ^^^ (x >>> 10)

/-- The SHA-256 round constants (FIPS 180-4 §4.2.2, in decimal). -/
def sha256K : List Nat :=
  [1116352408, 1899447441, 3049323471, 3921009573,
   961987163, 1508970993, 2453635748, 2870763221,
   3624381080, 310598401, 607225278, 1426881987,
   1925078388, 2162078206, 2614888103, 3248222580,
   3835390401, 4022224774, 264347078, 604807628,
   770255983, 1249150122, 1555081692, 1996064986,
   2554220882, 2821834349, 2952996808, 3210313671,
   3336571891, 3584528711, 113926993, 338241895,
   666307205, 773529912, 1294757372, 1396182291,
   1695183700, 1986661051, 2177026350, 2456956037,
   2730485921, 2820302411, 3259730800, 3345764771,
   3516065817, 3600352804, 4094571909, 275423344,
   430227734, 506948616, 659060556, 883997877,
   958139571, 1322822218, 1537002063, 1747873779,
   1955562222, 2024104815, 2227730452, 2361852424,
   2428436474, 2756734187, 3204031479, 3329325298]

/-- The SHA-256 initial hash value (FIPS 180-4 §5.3.3, in decimal). -/
def sha256H0 : List Nat :=
  [1779033703, 3144134277, 1013904242, 2773480762,
   1359893119, 2600822924, 528734635, 1541459225]

/-- Big-endian 8-byte encoding of the bit length. -/
def be64 (n : Nat) : List Nat :=
  [(n >>> 56) % 256, (n >>> 48) % 256, (n >>> 40) % 256, (n >>> 32) % 256,
   (n >>> 24) % 256, (n >>> 16) % 256, (n >>> 8) % 256, n % 256]

/-- Groups of four bytes into big-endian 32-bit words. -/
def bytesToWords : List Nat → List Nat
  | b0 :: b1 :: b2 :: b3 :: rest =>
    ((b0 <<< 24) ||| (b1 <<< 16) ||| (b2 <<< 8) ||| b3) :: bytesToWords rest
  | _ => []

/-- Each 32-bit word into four big-endian bytes. -/
def wordsToBytes : List Nat → List Nat
  | [] => []
  | w :: ws =>
    (w >>> 24) % 256 :: (w >>> 16) % 256 :: (w >>> 8) % 256 :: w % 256
      :: wordsToBytes ws

/-- Message-schedule extension; the accumulator holds the words most
recent first, so `W[t-2]` is at index 1, `W[t-7]` at 6, `W[t-15]` at
14 and `W[t-16]` at 15. -/
def extendW : Nat → List Nat → List Nat
  | 0, W => W
  | n + 1, W =>
    extendW n
      (add32 (add32 (ssig1 ((W.get? 1).getD 0)) ((W.get? 6).getD 0))
        (add32 (ssig0 ((W.get? 14).getD 0)) ((W.get? 15).getD 0)) :: W)

/-- The 64 compression rounds over the state `[a, b, c, d, e, f, g, h]`. -/
def sha256Rounds : List Nat → List Nat → List Nat → List Nat
  | w :: ws, k :: ks, [a, b, c, d, e, f, g, hh] =>
    sha256Rounds ws ks
      (add32 (add32 hh (add32 (bsig1 e) (add32 (ch32 e f g) (add32 k w))))
          (add32 (bsig0 a) (maj32 a b c)) ::
        a :: b :: c ::
        add32 d (add32 hh (add32 (bsig1 e) (add32 (ch32 e f g) (add32 k w))))
          :: e :: f :: [g])
  | _, _, st => st

/-- One SHA-256 block: schedule the 16 words, run the rounds, add the
states. -/
def sha256Compress (hs block : List Nat) : List Nat :=
  List.zipWith add32 hs (sha256Rounds (extendW 48 block.reverse).reverse sha256K hs)

/-- Fold the compression over the 16-word blocks of the padded message. -/
def sha256Blocks : List Nat → List Nat → List Nat
  | hs, w0 :: w1 :: w2 :: w3 :: w4 :: w5 :: w6 :: w7 ::
      w8 :: w9 :: w10 :: w11 :: w12 :: w13 :: w14 :: w15 :: rest =>
    sha256Blocks (sha256Compress hs
      [w0, w1, w2, w3, w4, w5, w6, w7, w8, w9, w10, w11, w12, w13, w14, w15])
      rest
  | hs, _ => hs

/-- SHA-256 of a byte sequence: pad to a multiple of 64 bytes
(`0x80`, zeros, 8-byte big-endian bit length), then compress
block-wise from the initial state. -/
def sha256 (msg : List Nat) : List Nat :=
  let L := msg.length
  let padded := msg ++ (128 ::
    (List.replicate ((120 - ((L + 1) % 64)) % 64) 0 ++ be64 (8 * L)))
  wordsToBytes (sha256Blocks sha256H0 (bytesToWords padded))

/-- The `FieldHasher<[u8; 32], 2>` impl for `Sha256`: hash the
concatenated child digests. -/
def shaH (a b : List Nat) : List Nat := sha256 (a ++ b)

/-- The all-zero 32-byte default leaf of the concrete scenarios. -/
def zero32 : List Nat := List.replicate 32 0

/-- Scenario 1: slots `0..9`, slot `k` holding `[k, 0, …, 0]`. -/
def scen1Leaves : Map (List Nat) :=
  (List.range 10).map (fun k => (k, k :: List.replicate 31 0))

/-- Flip (complement) the last byte of a digest. -/
def flipLastByte (l : List Nat) : List Nat :=
  match l.getLast? with
  | none => l
  | some b => l.dropLast ++ [b ^^^ 255]

/-- Scenario 2: from the scenario-1 tree, `batch_prove([5])` then
`verify`; `none` if construction or proving panics. -/
def scen1Result : Option (Except MErr Unit) :=
  match newSmt 32 (liftH shaH) scen1Leaves zero32 with
  | .error _ => none
  | .ok s =>
    match batchProve 32 s [5] with
    | none => none
    | some pt => some (PartialTree.verify 32 pt (liftH shaH)).2

/-- Scenario 3: as `scen1Result` but with the last byte of the partial
tree's `root` flipped before verifying. -/
def scen1FlippedResult : Option (Except MErr Unit) :=
  match newSmt 32 (liftH shaH) scen1Leaves zero32 with
  | .error _ => none
  | .ok s =>
    match batchProve 32 s [5] with
    | none => none
    | some pt =>
      some (PartialTree.verify 32
        { pt with root := flipLastByte pt.root } (liftH shaH)).2

/-- Decidable equality of `Except` results, for concrete witnesses. -/
instance {ε α : Type} [DecidableEq ε] [DecidableEq α] :
    DecidableEq (Except ε α) := fun x y =>
  match x, y with
  | .error a, .error b =>
    if h : a = b then .isTrue (by rw [h])
    else .isFalse (fun hc => h (Except.error.inj hc))
  | .ok a, .ok b =>
    if h : a = b then .isTrue (by rw [h])
    else .isFalse (fun hc => h (Except.ok.inj hc))
  | .error _, .ok _ => .isFalse (fun hc => Except.noConfusion hc)
  | .ok _, .error _ => .isFalse (fun hc => Except.noConfusion hc)

/-! ### Basic lemmas: maps, sorted sets, index arithmetic -/

theorem mget_minsert_self {F : Type} (m : Map F) (k : Nat) (v : F) :
    mget (minsert m k v) k = some v := by
  simp [minsert, mget]

theorem mget_minsert_ne {F : Type} (m : Map F) {k j : Nat} (v : F)
    (h : k ≠ j) : mget (minsert m k v) j = mget m j := by
  simp [minsert, mget, h]

theorem mget_none_of_minsert_none {F : Type} {m : Map F} {k j : Nat} {v : F}
    (h : mget (minsert m k v) j = none) : mget m j = none := by
  by_cases hk : k = j
  · subst hk; simp [mget_minsert_self] at h
  · rwa [mget_minsert_ne m v hk] at h

/-- A key bound in an association list is found by `mget`. -/
theorem mget_isSome_of_mem {F : Type} {m : Map F} {k : Nat} {v : F}
    (h : (k, v) ∈ m) : (mget m k).isSome := by
  induction m with
  | nil => simp at h
  | cons p t ih =>
    obtain ⟨k', v'⟩ := p
    by_cases hk : k' = k
    · simp [mget, hk]
    · have h' : (k, v) ∈ t := by
        rcases List.mem_cons.mp h with heq | hmem
        · exact absurd (congrArg Prod.fst heq.symm) hk
        · exact hmem
      simpa [mget, hk] using ih h'

theorem mem_sinsert {a b : Nat} : ∀ {l : List Nat},
    (a ∈ sinsert b l) ↔ (a = b ∨ a ∈ l) := by
  intro l
  induction l with
  | nil => simp [sinsert]
  | cons c t ih =>
    by_cases h1 : b < c
    · simp [sinsert, h1]
    · by_cases h2 : b = c
      · subst h2
        have hs : sinsert b (b :: t) = b :: t := by simp [sinsert]
        rw [hs]
        simp only [List.mem_cons]
        tauto
      · simp only [sinsert, if_neg h1, if_neg h2, List.mem_cons, ih]
        tauto

theorem pairwise_sinsert {b : Nat} : ∀ {l : List Nat},
    l.Pairwise (· < ·) → (sinsert b l).Pairwise (· < ·) := by
  intro l
  induction l with
  | nil => simp [sinsert]
  | cons c t ih =>
    intro hp
    rcases List.pairwise_cons.mp hp with ⟨hc, ht⟩
    by_cases h1 : b < c
    · simp only [sinsert, if_pos h1]
      refine List.pairwise_cons.mpr ⟨?_, hp⟩
      intro x hx
      rcases List.mem_cons.mp hx with rfl | hx
      · exact h1
      · exact h1.trans (hc x hx)
    · by_cases h2 : b = c
      · subst h2
        have hs : sinsert b (b :: t) = b :: t := by simp [sinsert]
        rw [hs]; exact hp
      · have hcb : c < b := by omega
        simp only [sinsert, if_neg h1, if_neg h2]
        refine List.pairwise_cons.mpr ⟨?_, ih ht⟩
        intro x hx
        rcases mem_sinsert.mp hx with rfl | hx
        · exact hcb
        · exact hc x hx

theorem parentIdx_eq_none {i : Nat} : parentIdx i = none ↔ i = 0 := by
  rcases Nat.eq_zero_or_pos i with rfl | hi
  · simp [parentIdx]
  · simp only [parentIdx, gt_iff_lt, hi, if_pos]
    constructor
    · intro hc; cases hc
    · omega

theorem parentIdx_pos {i : Nat} (h : 0 < i) :
    parentIdx i = some ((i - 1) / 2) := by
  simp [parentIdx, h]

/-- `(i - 1) / 2 = (i + 1) / 2 - 1` for positive `i`: the 0-based
parent in terms of the 1-based heap encoding. -/
theorem parent_one_based {i : Nat} (h : 0 < i) :
    (i - 1) / 2 = (i + 1) / 2 - 1 := by
  omega

/-- A node is `2p+1` or `2p+2` under its parent. -/
theorem child_cases {i p : Nat} (h : parentIdx i = some p) :
    i = 2 * p + 1 ∨ i = 2 * p + 2 := by
  unfold parentIdx at h
  split at h
  · simp only [Option.some.injEq] at h
    omega
  · exact absurd h (by simp)

/-! ### The empty-hash ladder -/

theorem emptyH_shift {F : Type} (h : F → F → F) (d : F) (ℓ : Nat) :
    emptyH h (h d d) ℓ = emptyH h d (ℓ + 1) := by
  induction ℓ with
  | zero => rfl
  | succ n ih => simp [emptyH, ih]

/-- With an infallible hasher, `gen_empty_hashes` returns exactly the
canonical ladder. -/
theorem genEmptyHashes_lift {F : Type} (h : F → F → F) :
    ∀ (n : Nat) (d : F), genEmptyHashes (liftH h) n d = some (ladder h d n) := by
  intro n
  induction n with
  | zero => intro d; simp [genEmptyHashes, ladder]
  | succ m ih =>
    intro d
    have hmap : List.map (emptyH h d ∘ Nat.succ) (List.range m)
        = List.map (emptyH h (h d d)) (List.range m) := by
      apply List.map_congr_left
      intro i _
      simp only [Function.comp_apply]
      exact (emptyH_shift h d i).symm
    have hlad : ladder h d (m + 1) = d :: ladder h (h d d) m := by
      simp only [ladder, List.range_succ_eq_map, List.map_cons, List.map_map]
      rw [hmap]
      rfl
    rw [hlad]
    simp [genEmptyHashes, liftH, ih (h d d)]

theorem ladder_length {F : Type} (h : F → F → F) (d : F) (n : Nat) :
    (ladder h d n).length = n := by simp [ladder]

theorem ladder_get {F : Type} (h : F → F → F) (d : F) {n ℓ : Nat}
    (hl : ℓ < n) : (ladder h d n).get? ℓ = some (emptyH h d ℓ) := by
  simp [ladder, List.get?_eq_getElem?, List.getElem?_map, List.getElem?_range hl]

theorem ladder_getLast {F : Type} (h : F → F → F) (d : F) {n : Nat}
    (hn : 0 < n) : (ladder h d n).getLast? = some (emptyH h d (n - 1)) := by
  have hlen : (ladder h d n).length = n := ladder_length h d n
  rw [List.getLast?_eq_getElem?, hlen, ← List.get?_eq_getElem?]
  exact ladder_get h d (by omega)


theorem genEmptyHashes_none_iff {F : Type} (hasher : F → F → Option F) :
    ∀ (n : Nat) (d : F),
      genEmptyHashes hasher n d = none ↔ hIter hasher n d = none := by
  intro n
  induction n with
  | zero => intro d; simp [genEmptyHashes, hIter]
  | succ m ih =>
    intro d
    simp only [genEmptyHashes, hIter]
    cases hasher d d with
    | none => simp
    | some d' =>
      simp only
      rw [← ih d']
      cases genEmptyHashes hasher m d' <;> simp

/-- Shape of a successful `gen_empty_hashes` run: the head is the
default leaf and each later entry hashes its predecessor with itself
(through the possibly-fallible hasher). -/
theorem genEmptyHashes_spec {F : Type} (hasher : F → F → Option F) :
    ∀ (n : Nat) (d : F) (l : List F), genEmptyHashes hasher n d = some l →
      l.length = n ∧ (0 < n → l.get? 0 = some d) ∧
      ∀ ℓ, 1 ≤ ℓ → ℓ < n → ∃ p q, l.get? (ℓ - 1) = some p ∧
        hasher p p = some q ∧ l.get? ℓ = some q := by
  intro n
  induction n with
  | zero =>
    intro d l hl
    simp [genEmptyHashes] at hl
    subst hl
    refine ⟨rfl, by omega, by omega⟩
  | succ m ih =>
    intro d l hl
    simp only [genEmptyHashes] at hl
    cases hd : hasher d d with
    | none => rw [hd] at hl; simp at hl
    | some d' =>
      rw [hd] at hl
      simp only [Option.map_eq_some'] at hl
      obtain ⟨l', hl', rfl⟩ := hl
      obtain ⟨hlen, hhead, hrec⟩ := ih d' l' hl'
      refine ⟨by simp [hlen], fun _ => rfl, ?_⟩
      intro ℓ h1 h2
      match ℓ, h1 with
      | 1, _ =>
        have hm : 0 < m := by omega
        refine ⟨d, d', rfl, hd, ?_⟩
        simpa using hhead hm
      | (j + 2), _ =>
        obtain ⟨p, q, hp, hq, hj⟩ := hrec (j + 1) (by omega) (by omega)
        exact ⟨p, q, by simpa using hp, hq, by simpa using hj⟩

/-! ### Subtree hashes and heap-index geometry

The height-`ℓ` subtree rooted at node `i` has its bottom-level nodes
`j` characterized by `2^ℓ * (i+1) ≤ j+1 < 2^ℓ * (i+2)` (the 1-based
heap encoding `i ↦ i+1` turns parent into division by two). -/

/-- The bottom-level band of a child subtree is contained in that of
its parent. -/
theorem child_band {m i j c : Nat} (hc : c = 2 * i + 1 ∨ c = 2 * i + 2)
    (h1 : 2 ^ m * (c + 1) ≤ j + 1) (h2 : j + 1 < 2 ^ m * (c + 2)) :
    2 ^ (m + 1) * (i + 1) ≤ j + 1 ∧ j + 1 < 2 ^ (m + 1) * (i + 2) := by
  rcases hc with rfl | rfl
  · constructor
    · calc 2 ^ (m + 1) * (i + 1) = 2 ^ m * (2 * i + 1 + 1) := by ring
      _ ≤ j + 1 := h1
    · calc j + 1 < 2 ^ m * (2 * i + 1 + 2) := h2
      _ ≤ 2 ^ m * (2 * i + 4) := Nat.mul_le_mul_left _ (by omega)
      _ = 2 ^ (m + 1) * (i + 2) := by ring
  · constructor
    · calc 2 ^ (m + 1) * (i + 1) = 2 ^ m * (2 * i + 2) := by ring
      _ ≤ 2 ^ m * (2 * i + 2 + 1) := Nat.mul_le_mul_left _ (by omega)
      _ ≤ j + 1 := h1
    · calc j + 1 < 2 ^ m * (2 * i + 2 + 2) := h2
      _ = 2 ^ (m + 1) * (i + 2) := by ring

theorem subH_congr {F : Type} (h : F → F → F) {g g' : Nat → F} :
    ∀ (ℓ i : Nat),
      (∀ j, 2 ^ ℓ * (i + 1) ≤ j + 1 → j + 1 < 2 ^ ℓ * (i + 2) → g j = g' j) →
      subH h g ℓ i = subH h g' ℓ i := by
  intro ℓ
  induction ℓ with
  | zero =>
    intro i hg
    exact hg i (by omega) (by omega)
  | succ m ih =>
    intro i hg
    show h _ _ = h _ _
    rw [ih (leftChild i) ?_, ih (rightChild i) ?_]
    all_goals
      intro j h1 h2
      simp only [leftChild, rightChild] at h1 h2
      first
      | exact hg j (child_band (Or.inl rfl) h1 h2).1 (child_band (Or.inl rfl) h1 h2).2
      | exact hg j (child_band (Or.inr rfl) h1 h2).1 (child_band (Or.inr rfl) h1 h2).2

theorem subH_empty {F : Type} (h : F → F → F) (d : F) {g : Nat → F} :
    ∀ (ℓ i : Nat),
      (∀ j, 2 ^ ℓ * (i + 1) ≤ j + 1 → j + 1 < 2 ^ ℓ * (i + 2) → g j = d) →
      subH h g ℓ i = emptyH h d ℓ := by
  intro ℓ
  induction ℓ with
  | zero =>
    intro i hg
    exact hg i (by omega) (by omega)
  | succ m ih =>
    intro i hg
    show h _ _ = h _ _
    rw [ih (leftChild i) ?_, ih (rightChild i) ?_]
    all_goals
      intro j h1 h2
      simp only [leftChild, rightChild] at h1 h2
      first
      | exact hg j (child_band (Or.inl rfl) h1 h2).1 (child_band (Or.inl rfl) h1 h2).2
      | exact hg j (child_band (Or.inr rfl) h1 h2).1 (child_band (Or.inr rfl) h1 h2).2


theorem inDepth_unique {a b x : Nat} (ha : 2 ^ a ≤ x ∧ x < 2 ^ (a + 1))
    (hb : 2 ^ b ≤ x ∧ x < 2 ^ (b + 1)) : a = b := by
  by_contra hne
  rcases Nat.lt_or_ge a b with hab | hab
  · have : 2 ^ (a + 1) ≤ 2 ^ b := Nat.pow_le_pow_right (by omega) (by omega)
    omega
  · have hba : b < a := by omega
    have : 2 ^ (b + 1) ≤ 2 ^ a := Nat.pow_le_pow_right (by omega) (by omega)
    omega

theorem inDepth_leftChild {dpt i : Nat} (h : inDepth dpt i) :
    inDepth (dpt + 1) (leftChild i) := by
  obtain ⟨h1, h2⟩ := h
  have hpow : 2 ^ (dpt + 1) = 2 * 2 ^ dpt := by ring
  have hpow2 : 2 ^ (dpt + 2) = 2 * 2 ^ (dpt + 1) := by ring
  unfold inDepth leftChild
  omega

theorem inDepth_rightChild {dpt i : Nat} (h : inDepth dpt i) :
    inDepth (dpt + 1) (rightChild i) := by
  obtain ⟨h1, h2⟩ := h
  have hpow : 2 ^ (dpt + 1) = 2 * 2 ^ dpt := by ring
  have hpow2 : 2 ^ (dpt + 2) = 2 * 2 ^ (dpt + 1) := by ring
  unfold inDepth rightChild
  omega

theorem inDepth_parent {dpt i : Nat} (hd : inDepth (dpt + 1) i) :
    inDepth dpt ((i - 1) / 2) := by
  obtain ⟨h1, h2⟩ := hd
  have hi : 0 < i := by
    have h2' : (2:Nat) ≤ 2 ^ (dpt + 1) := by
      calc (2:Nat) = 2 ^ 1 := by ring
      _ ≤ 2 ^ (dpt + 1) := Nat.pow_le_pow_right (by omega) (by omega)
    omega
  have hq : (i - 1) / 2 + 1 = (i + 1) / 2 := by omega
  have hpow : 2 ^ (dpt + 1) = 2 * 2 ^ dpt := by ring
  have hpow2 : 2 ^ (dpt + 2) = 2 * 2 ^ (dpt + 1) := by ring
  have hlow : 2 ^ dpt ≤ (i + 1) / 2 := by
    rw [Nat.le_div_iff_mul_le (by omega)]
    omega
  have hup : (i + 1) / 2 < 2 ^ (dpt + 1) := by
    apply Nat.div_lt_of_lt_mul
    omega
  have hdiv : 1 ≤ (i + 1) / 2 := by
    have h1' : (1:Nat) ≤ 2 ^ dpt := Nat.one_le_two_pow
    omega
  constructor
  · rw [hq]; exact hlow
  · rw [hq]; omega

/-- A non-root node's sibling sits at the same depth. -/
theorem inDepth_sib {dpt i : Nat} (hd : inDepth (dpt + 1) i) :
    inDepth (dpt + 1) (sibIdx i) := by
  obtain ⟨h1, h2⟩ := hd
  have h2' : (2:Nat) ≤ 2 ^ (dpt + 1) := by
    calc (2:Nat) = 2 ^ 1 := by ring
    _ ≤ 2 ^ (dpt + 1) := Nat.pow_le_pow_right (by omega) (by omega)
  have hev : 2 ^ (dpt + 1) % 2 = 0 := by
    have : 2 ^ (dpt + 1) = 2 * 2 ^ dpt := by ring
    omega
  have hev2 : 2 ^ (dpt + 2) % 2 = 0 := by
    have : 2 ^ (dpt + 2) = 2 * 2 ^ (dpt + 1) := by ring
    omega
  unfold sibIdx
  by_cases hpar : i % 2 = 1
  · simp only [hpar, if_pos]
    constructor <;> omega
  · simp only [hpar]
    rw [if_neg (by simp [hpar])]
    constructor <;> omega

/-- Children of `p` are exactly `{c, sibIdx c}` for either child `c`. -/
theorem sib_of_child {p c : Nat} (h : parentIdx c = some p) :
    (c = leftChild p ∧ sibIdx c = rightChild p) ∨
    (c = rightChild p ∧ sibIdx c = leftChild p) := by
  rcases child_cases h with hc | hc
  · left
    refine ⟨hc, ?_⟩
    subst hc
    simp [sibIdx, leftChild, rightChild, Nat.mul_add_mod]
  · right
    refine ⟨hc, ?_⟩
    subst hc
    have : (2 * p + 2) % 2 = 0 := by omega
    simp [sibIdx, leftChild, rightChild, this]


theorem anc_zero (j : Nat) : anc 0 j = j := by simp [anc]

theorem anc_succ {m j : Nat} (h : 0 < anc m j) :
    parentIdx (anc m j) = some (anc (m + 1) j) := by
  rw [parentIdx_pos h]
  congr 1
  unfold anc at *
  have h1 : 2 ≤ (j + 1) / 2 ^ m := by omega
  have h2 : (j + 1) / 2 ^ m / 2 = (j + 1) / 2 ^ (m + 1) := by
    rw [Nat.div_div_eq_div_mul, pow_succ]
  omega

/-- Depth of the `m`-th ancestor of a node at depth `N` (a leaf node),
for `m ≤ N`. -/
theorem anc_inDepth {N m j : Nat} (hm : m ≤ N) (hj : inDepth N j) :
    inDepth (N - m) (anc m j) := by
  obtain ⟨h1, h2⟩ := hj
  have hple : 2 ^ m ∣ 2 ^ N := pow_dvd_pow 2 hm
  have hq1 : 2 ^ (N - m) ≤ (j + 1) / 2 ^ m := by
    have : 2 ^ (N - m) * 2 ^ m ≤ j + 1 := by
      rw [← pow_add]
      have : N - m + m = N := by omega
      rw [this]; exact h1
    exact (Nat.le_div_iff_mul_le (Nat.pos_pow_of_pos m (by omega))).mpr this
  have hq2 : (j + 1) / 2 ^ m < 2 ^ (N - m + 1) := by
    apply Nat.div_lt_of_lt_mul
    calc j + 1 < 2 ^ (N + 1) := h2
    _ = 2 ^ m * 2 ^ (N - m + 1) := by
        rw [← pow_add]
        congr 1
        omega
  have hpos : 1 ≤ (j + 1) / 2 ^ m := by
    have : (1:Nat) ≤ 2 ^ (N - m) := Nat.one_le_two_pow
    omega
  constructor
  · unfold anc; omega
  · unfold anc; omega

/-- Bottom-level membership: `j` lies under the height-`ℓ` subtree at
`i` iff `(j+1)/2^ℓ = i+1`. -/
theorem under_iff {ℓ i j : Nat} :
    (2 ^ ℓ * (i + 1) ≤ j + 1 ∧ j + 1 < 2 ^ ℓ * (i + 2)) ↔
    (j + 1) / 2 ^ ℓ = i + 1 := by
  have hpos : 0 < 2 ^ ℓ := Nat.pos_pow_of_pos ℓ (by omega)
  constructor
  · rintro ⟨h1, h2⟩
    have hle : i + 1 ≤ (j + 1) / 2 ^ ℓ := by
      rw [Nat.le_div_iff_mul_le hpos, mul_comm]
      exact h1
    have hlt : (j + 1) / 2 ^ ℓ < i + 2 := Nat.div_lt_of_lt_mul h2
    omega
  · intro hq
    have hmod := Nat.div_add_mod (j + 1) (2 ^ ℓ)
    have hmlt := Nat.mod_lt (j + 1) hpos
    constructor
    · calc 2 ^ ℓ * (i + 1) = 2 ^ ℓ * ((j + 1) / 2 ^ ℓ) := by rw [hq]
      _ ≤ j + 1 := by omega
    · calc j + 1 < 2 ^ ℓ * ((j + 1) / 2 ^ ℓ) + 2 ^ ℓ := by omega
      _ = 2 ^ ℓ * (i + 2) := by rw [hq]; ring

/-! ### Correctness invariants for `insert_batch` -/





theorem mem_of_mget {F : Type} {m : Map F} {k : Nat} {v : F}
    (h : mget m k = some v) : (k, v) ∈ m := by
  induction m with
  | nil => simp [mget] at h
  | cons p t ih =>
    obtain ⟨k', v'⟩ := p
    by_cases hk : k' = k
    · simp only [mget, if_pos hk] at h
      obtain rfl := Option.some.injEq .. ▸ h
      subst hk
      exact List.mem_cons_self _ _
    · simp only [mget, if_neg hk] at h
      exact List.mem_cons_of_mem _ (ih h)

theorem mget_of_mem_nodup {F : Type} {m : Map F} {k : Nat} {v : F}
    (hmem : (k, v) ∈ m) (hnd : (m.map Prod.fst).Nodup) :
    mget m k = some v := by
  induction m with
  | nil => simp at hmem
  | cons p t ih =>
    obtain ⟨k', v'⟩ := p
    simp only [List.map_cons, List.nodup_cons] at hnd
    rcases List.mem_cons.mp hmem with heq | hmem'
    · obtain ⟨rfl, rfl⟩ := Prod.mk.injEq .. ▸ heq
      simp [mget]
    · have hk : k' ≠ k := by
        intro hc
        subst hc
        exact hnd.1 (List.mem_map.mpr ⟨(k', v), hmem', rfl⟩)
      simp only [mget, if_neg hk]
      exact ih hmem' hnd.2

theorem inDepth_zero_iff {d0 : Nat} : inDepth d0 0 ↔ d0 = 0 := by
  unfold inDepth
  constructor
  · rintro ⟨h1, h2⟩
    by_contra hne
    have : 2 ^ 1 ≤ 2 ^ d0 := Nat.pow_le_pow_right (by omega) (by omega)
    omega
  · rintro rfl
    simp

theorem list_eq_nil_of_no_mem {l : List Nat} (h : ∀ a, a ∉ l) : l = [] := by
  cases l with
  | nil => rfl
  | cons a t => exact absurd (List.mem_cons_self a t) (h a)

theorem list_eq_singleton_zero {l : List Nat}
    (hpw : l.Pairwise (· < ·)) (hall : ∀ a ∈ l, a = 0) (h0 : 0 ∈ l) :
    l = [0] := by
  cases l with
  | nil => simp at h0
  | cons a t =>
    obtain rfl := hall a (List.mem_cons_self a t)
    cases t with
    | nil => rfl
    | cons b t' =>
      obtain rfl := hall b (by simp)
      rcases List.pairwise_cons.mp hpw with ⟨hc, _⟩
      exact absurd (hc 0 (by simp)) (by omega)

/-- Phase 1 of `insert_batch` (`insertLeaves`) writes each batch leaf
at its node index, touches nothing else, and accumulates exactly the
parents of the written leaf nodes. -/
theorem insertLeaves_spec {F : Type} {N : Nat} (hN : 1 ≤ N) :
    ∀ (M : Map F) (t : Map F) (acc : List Nat),
      (∀ p ∈ M, p.1 < 2 ^ N) → (M.map Prod.fst).Nodup →
      ∃ t₁ S₁, insertLeaves (2 ^ N - 1) t acc M = .ok (t₁, S₁) ∧
        (∀ k v, (k, v) ∈ M → mget t₁ (2 ^ N - 1 + k) = some v) ∧
        (∀ j, (¬ ∃ k v, (k, v) ∈ M ∧ j = 2 ^ N - 1 + k) →
          mget t₁ j = mget t j) ∧
        (∀ a, a ∈ S₁ ↔ a ∈ acc ∨
          ∃ k v, (k, v) ∈ M ∧ parentIdx (2 ^ N - 1 + k) = some a) ∧
        (acc.Pairwise (· < ·) → S₁.Pairwise (· < ·)) := by
  intro M
  induction M with
  | nil =>
    intro t acc _ _
    refine ⟨t, acc, rfl, by simp, fun _ _ => rfl, ?_, fun hp => hp⟩
    simp
  | cons p rest ih =>
    intro t acc hb hnd
    obtain ⟨k, v⟩ := p
    have hk : k < 2 ^ N := hb (k, v) (List.mem_cons_self _ _)
    have hpos : 0 < 2 ^ N - 1 + k := by
      have : (2:Nat) ≤ 2 ^ N := by
        calc (2:Nat) = 2 ^ 1 := by ring
        _ ≤ 2 ^ N := Nat.pow_le_pow_right (by omega) hN
      omega
    have hpar : parentIdx (2 ^ N - 1 + k) = some ((2 ^ N - 1 + k - 1) / 2) :=
      parentIdx_pos hpos
    simp only [List.map_cons, List.nodup_cons] at hnd
    obtain ⟨t₁, S₁, hrun, hwr, hun, hmem, hpw⟩ :=
      ih (minsert t (2 ^ N - 1 + k) v) (sinsert ((2 ^ N - 1 + k - 1) / 2) acc)
        (fun q hq => hb q (List.mem_cons_of_mem _ hq)) hnd.2
    refine ⟨t₁, S₁, ?_, ?_, ?_, ?_, ?_⟩
    · simp only [insertLeaves, hpar]
      exact hrun
    · intro k' v' hmem'
      rcases List.mem_cons.mp hmem' with heq | hmem'
      · injection heq with h1 h2
        replace h1 := h1.symm
        replace h2 := h2.symm
        subst h1
        subst h2
        have hnot : ¬ ∃ k2 v2, (k2, v2) ∈ rest ∧
            2 ^ N - 1 + k = 2 ^ N - 1 + k2 := by
          rintro ⟨k2, v2, hm2, he2⟩
          have : k = k2 := by omega
          subst this
          exact hnd.1 (List.mem_map.mpr ⟨(k, v2), hm2, rfl⟩)
        rw [hun _ hnot]
        exact mget_minsert_self t _ v
      · exact hwr k' v' hmem'
    · intro j hj
      have hj' : ¬ ∃ k2 v2, (k2, v2) ∈ rest ∧ j = 2 ^ N - 1 + k2 := by
        rintro ⟨k2, v2, hm2, he2⟩
        exact hj ⟨k2, v2, List.mem_cons_of_mem _ hm2, he2⟩
      rw [hun j hj']
      have hne : 2 ^ N - 1 + k ≠ j := by
        intro hc
        exact hj ⟨k, v, List.mem_cons_self _ _, hc.symm⟩
      exact mget_minsert_ne t v hne
    · intro a
      rw [hmem a, mem_sinsert]
      constructor
      · rintro ((rfl | ha) | ⟨k2, v2, hm2, hp2⟩)
        · exact Or.inr ⟨k, v, List.mem_cons_self _ _, hpar⟩
        · exact Or.inl ha
        · exact Or.inr ⟨k2, v2, List.mem_cons_of_mem _ hm2, hp2⟩
      · rintro (ha | ⟨k2, v2, hm2, hp2⟩)
        · exact Or.inl (Or.inr ha)
        · rcases List.mem_cons.mp hm2 with heq | hm2'
          · injection heq with h1 h2
            subst h1
            rw [hpar] at hp2
            obtain rfl := Option.some.inj hp2
            exact Or.inl (Or.inl rfl)
          · exact Or.inr ⟨k2, v2, hm2', hp2⟩
    · intro hacc
      exact hpw (pairwise_sinsert hacc)

/-- One level of `insert_batch` with an infallible hasher: every dirty
index (all at depth `N - 1 - ℓ`) receives the hash of its two children
as read from the incoming map, no other depth is touched, and the
outgoing dirty set is exactly the set of parents. -/
theorem insertLevel_spec {F : Type} [DecidableEq F]
    (h : F → F → F) (d : F) (N ℓ : Nat) :
    ∀ (idxs : List Nat) (t : Map F) (acc : List Nat),
      (∀ i ∈ idxs, inDepth (N - 1 - ℓ) i) →
      idxs.Pairwise (· < ·) →
      ∃ t' out,
        insertLevel (liftH h) (emptyH h d ℓ) t idxs acc = .ok (t', out) ∧
        (∀ i ∈ idxs, mget t' i = some (h
          ((mget t (leftChild i)).getD (emptyH h d ℓ))
          ((mget t (rightChild i)).getD (emptyH h d ℓ)))) ∧
        (∀ j, ¬ inDepth (N - 1 - ℓ) j → mget t' j = mget t j) ∧
        (∀ j, inDepth (N - 1 - ℓ) j → j ∉ idxs → mget t' j = mget t j) ∧
        (∀ a, a ∈ out ↔ a ∈ acc ∨ ∃ i ∈ idxs, parentIdx i = some a) ∧
        (acc.Pairwise (· < ·) → out.Pairwise (· < ·)) := by
  intro idxs
  induction idxs with
  | nil =>
    intro t acc _ _
    refine ⟨t, acc, rfl, by simp, fun _ _ => rfl, fun _ _ _ => rfl, ?_, fun z => z⟩
    simp
  | cons i rest ih =>
    intro t acc hdep hpw
    have hdi : inDepth (N - 1 - ℓ) i := hdep i (List.mem_cons_self _ _)
    rcases List.pairwise_cons.mp hpw with ⟨hlt, hpwr⟩
    by_cases hi : i = 0
    · subst hi
      have hd0 : N - 1 - ℓ = 0 := inDepth_zero_iff.mp hdi
      have hrest : rest = [] := by
        apply list_eq_nil_of_no_mem
        intro a ha
        have h1 := hlt a ha
        have h2 := hdep a (List.mem_cons_of_mem _ ha)
        rw [hd0] at h2
        obtain ⟨_, h3⟩ := h2
        omega
      subst hrest
      refine ⟨minsert t 0 (h ((mget t (leftChild 0)).getD (emptyH h d ℓ))
        ((mget t (rightChild 0)).getD (emptyH h d ℓ))), acc, ?_, ?_, ?_, ?_, ?_, fun z => z⟩
      · simp [insertLevel, liftH, parentIdx]
      · intro i' hi'
        rcases List.mem_cons.mp hi' with rfl | hc
        · exact mget_minsert_self _ _ _
        · simp at hc
      · intro j hj
        have hne : (0:Nat) ≠ j := by
          intro hc
          subst hc
          rw [hd0] at hj
          exact hj (inDepth_zero_iff.mpr rfl)
        exact mget_minsert_ne _ _ hne
      · intro j hj hnotmem
        exfalso
        rw [hd0] at hj
        obtain ⟨_, h3⟩ := hj
        have : j = 0 := by omega
        subst this
        exact hnotmem (List.mem_cons_self _ _)
      · intro a
        simp only [List.mem_singleton]
        constructor
        · intro ha; exact Or.inl ha
        · rintro (ha | ⟨i', hi', hp⟩)
          · exact ha
          · subst hi'
            simp [parentIdx] at hp
    · have hpar : parentIdx i = some ((i - 1) / 2) := parentIdx_pos (by omega)
      have hine : ∀ r ∈ rest, i ≠ r := fun r hr => Nat.ne_of_lt (hlt r hr)
      obtain ⟨t', out, hrun, hwr, hother, hsame, hmem, hpw'⟩ :=
        ih (minsert t i (h ((mget t (leftChild i)).getD (emptyH h d ℓ))
            ((mget t (rightChild i)).getD (emptyH h d ℓ))))
          (sinsert ((i - 1) / 2) acc)
          (fun r hr => hdep r (List.mem_cons_of_mem _ hr)) hpwr
      have hchild_ne : ∀ i', inDepth (N - 1 - ℓ) i' →
          i ≠ leftChild i' ∧ i ≠ rightChild i' := by
        intro i' hdi'
        constructor
        · intro hc
          have hl := inDepth_leftChild hdi'
          rw [← hc] at hl
          have := inDepth_unique
            (a := N - 1 - ℓ) (b := N - 1 - ℓ + 1) (x := i + 1) hdi hl
          omega
        · intro hc
          have hl := inDepth_rightChild hdi'
          rw [← hc] at hl
          have := inDepth_unique
            (a := N - 1 - ℓ) (b := N - 1 - ℓ + 1) (x := i + 1) hdi hl
          omega
      refine ⟨t', out, ?_, ?_, ?_, ?_, ?_, ?_⟩
      · simp only [insertLevel, liftH, hpar]
        exact hrun
      · intro i' hi'
        rcases List.mem_cons.mp hi' with rfl | hr
        · rw [hsame i' hdi (fun hc => (hine i' hc) rfl)]
          exact mget_minsert_self _ _ _
        · have hdi' := hdep i' (List.mem_cons_of_mem _ hr)
          rw [hwr i' hr,
            mget_minsert_ne _ _ (hchild_ne i' hdi').1,
            mget_minsert_ne _ _ (hchild_ne i' hdi').2]
      · intro j hj
        rw [hother j hj]
        exact mget_minsert_ne _ _ (fun hc => hj (hc ▸ hdi))
      · intro j hj hnm
        have hjr : j ∉ rest := fun hr => hnm (List.mem_cons_of_mem _ hr)
        rw [hsame j hj hjr]
        exact mget_minsert_ne _ _
          (fun hc => hnm (hc ▸ List.mem_cons_self i rest))
      · intro a
        rw [hmem a, mem_sinsert]
        constructor
        · rintro ((rfl | ha) | ⟨i', hi', hp⟩)
          · exact Or.inr ⟨i, List.mem_cons_self _ _, hpar⟩
          · exact Or.inl ha
          · exact Or.inr ⟨i', List.mem_cons_of_mem _ hi', hp⟩
        · rintro (ha | ⟨i', hi', hp⟩)
          · exact Or.inl (Or.inr ha)
          · rcases List.mem_cons.mp hi' with rfl | hr
            · rw [hpar] at hp
              obtain rfl := Option.some.inj hp
              exact Or.inl (Or.inl rfl)
            · exact Or.inr ⟨i', hr, hp⟩
      · intro hacc
        exact hpw' (pairwise_sinsert hacc)

theorem leaf_inDepth {N k : Nat} (hk : k < 2 ^ N) :
    inDepth N (2 ^ N - 1 + k) := by
  have hpow : 2 ^ (N + 1) = 2 * 2 ^ N := by ring
  have h1 : (1:Nat) ≤ 2 ^ N := Nat.one_le_two_pow
  unfold inDepth
  omega

theorem anc_leaf_top {N k : Nat} (hk : k < 2 ^ N) :
    anc N (2 ^ N - 1 + k) = 0 := by
  have h1 : (1:Nat) ≤ 2 ^ N := Nat.one_le_two_pow
  have he : 2 ^ N - 1 + k + 1 = 2 ^ N + k := by omega
  unfold anc
  rw [he]
  have : (2 ^ N + k) / 2 ^ N = 1 := by
    apply Nat.div_eq_of_lt_le
    · omega
    · omega
  omega

theorem subH_root {F : Type} (h : F → F → F) (g : Nat → F) {N : Nat}
    (hN : 1 ≤ N) :
    subH h g N 0 = h (subH h g (N - 1) 1) (subH h g (N - 1) 2) := by
  obtain ⟨N', rfl⟩ : ∃ n, N = n + 1 := ⟨N - 1, by omega⟩
  simp [subH, leftChild, rightChild]

/-- The `for level in 0..N` loop of `insert_batch`, run from level `ℓ`
with `c` levels remaining, carries the level invariants up the tree and
finally materializes the root whenever the batch is non-empty. -/
theorem insertLevels_run {F : Type} [DecidableEq F]
    (h : F → F → F) (d : F) (N : Nat) (hN : 1 ≤ N)
    (t₀ : Map F) (g : Nat → F) (M : Map F)
    (ht₀ : TreeOK h d N t₀ g)
    (hM : ∀ p ∈ M, p.1 < 2 ^ N) :
    ∀ (c ℓ : Nat) (t : Map F) (Fr : List Nat),
      ℓ + c = N → 1 ≤ c →
      (∀ m, m ≤ ℓ → m < N → LevelOK h d N t (updG N M g) m) →
      (∀ a, a ∈ Fr ↔ ∃ k v, (k, v) ∈ M ∧ a = anc (ℓ + 1) (2 ^ N - 1 + k)) →
      Fr.Pairwise (· < ·) →
      (∀ j, j + 1 < 2 ^ (N - ℓ) → mget t j = mget t₀ j) →
      ∃ t', insertLevels (liftH h) (ladder h d N) (List.range' ℓ c 1) t Fr
          = .ok t' ∧
        (∀ m, m < N → LevelOK h d N t' (updG N M g) m) ∧
        (M = [] → mget t' 0 = mget t₀ 0) ∧
        (M ≠ [] → mget t' 0 = some (subH h (updG N M g) N 0)) := by
  intro c
  induction c with
  | zero => intro ℓ t Fr _ hc; omega
  | succ c' ih =>
    intro ℓ t Fr hsum _ H1 H2 H3 H4
    have hℓN : ℓ < N := by omega
    have heℓ : (ladder h d N).get? ℓ = some (emptyH h d ℓ) := ladder_get h d hℓN
    -- frontier elements sit at depth N - 1 - ℓ
    have hFrDep : ∀ i ∈ Fr, inDepth (N - 1 - ℓ) i := by
      intro i hi
      obtain ⟨k, v, hkv, rfl⟩ := (H2 i).mp hi
      have hk : k < 2 ^ N := hM (k, v) hkv
      have := anc_inDepth (m := ℓ + 1) (by omega) (leaf_inDepth hk)
      have heq : N - (ℓ + 1) = N - 1 - ℓ := by omega
      rwa [heq] at this
    obtain ⟨t₁, out, hrun₁, hwr, hother, hsame, hout, hpw'⟩ :=
      insertLevel_spec h d N ℓ Fr t [] hFrDep H3
    -- the written value at a frontier node is the correct subtree hash
    have hwrVal : ∀ i ∈ Fr, mget t₁ i = some (subH h (updG N M g) (ℓ + 1) i) := by
      intro i hi
      have hdi := hFrDep i hi
      have hdl : inDepth (N - ℓ) (leftChild i) := by
        have := inDepth_leftChild hdi
        have heq : N - 1 - ℓ + 1 = N - ℓ := by omega
        rwa [heq] at this
      have hdr : inDepth (N - ℓ) (rightChild i) := by
        have := inDepth_rightChild hdi
        have heq : N - 1 - ℓ + 1 = N - ℓ := by omega
        rwa [heq] at this
      rw [hwr i hi]
      have hl := H1 ℓ (by omega) hℓN (leftChild i) hdl
      have hr := H1 ℓ (by omega) hℓN (rightChild i) hdr
      unfold nval at hl hr
      rw [hl, hr]
      rfl
    by_cases hc0 : c' = 0
    · -- last level: ℓ = N - 1, the frontier is {0} (or empty)
      subst hc0
      have hℓtop : ℓ = N - 1 := by omega
      have hrun : insertLevels (liftH h) (ladder h d N) (List.range' ℓ 1 1) t Fr
          = .ok t₁ := by
        show insertLevels (liftH h) (ladder h d N) (ℓ :: List.range' (ℓ + 1) 0 1)
            t Fr = .ok t₁
        simp only [insertLevels, heℓ, hrun₁]
      refine ⟨t₁, hrun, ?_, ?_, ?_⟩
      · intro m hm i hdi
        have hi1 : 1 ≤ i := by
          obtain ⟨hlo, _⟩ := hdi
          have : (2:Nat) ≤ 2 ^ (N - m) :=
            calc (2:Nat) = 2 ^ 1 := by ring
            _ ≤ 2 ^ (N - m) := Nat.pow_le_pow_right (by omega) (by omega)
          omega
        have hnd : ¬ inDepth (N - 1 - ℓ) i := by
          rw [hℓtop]
          intro hc
          have : N - 1 - (N - 1) = 0 := by omega
          rw [this] at hc
          obtain ⟨_, hb⟩ := hc
          omega
        unfold nval
        rw [hother i hnd]
        exact H1 m (by omega) hm i hdi
      · intro hMnil
        subst hMnil
        have hFrN : Fr = [] := by
          apply list_eq_nil_of_no_mem
          intro a ha
          obtain ⟨k, v, hkv, _⟩ := (H2 a).mp ha
          simp at hkv
        subst hFrN
        have h00 : inDepth (N - 1 - ℓ) 0 := by
          rw [hℓtop]
          have : N - 1 - (N - 1) = 0 := by omega
          rw [this]
          exact inDepth_zero_iff.mpr rfl
        rw [hsame 0 h00 (by simp)]
        apply H4
        have : N - ℓ = 1 := by omega
        rw [this]
        omega
      · intro hMne
        obtain ⟨p0, hp0⟩ := List.exists_mem_of_ne_nil M hMne
        obtain ⟨k0, v0⟩ := p0
        have hk0 : k0 < 2 ^ N := hM (k0, v0) hp0
        have h0F : 0 ∈ Fr := by
          rw [H2 0]
          refine ⟨k0, v0, hp0, ?_⟩
          have : ℓ + 1 = N := by omega
          rw [this, anc_leaf_top hk0]
        have := hwrVal 0 h0F
        have hNe : ℓ + 1 = N := by omega
        rwa [hNe] at this
    · -- interior level: recurse
      have hc1 : 1 ≤ c' := by omega
      have hℓint : ℓ + 1 ≤ N - 1 := by omega
      have hDeq : N - (ℓ + 1) = N - 1 - ℓ := by omega
      have hD1 : 1 ≤ N - 1 - ℓ := by omega
      -- untouched nodes at the next level still satisfy the invariant
      have hkeep : ∀ i, inDepth (N - 1 - ℓ) i → i ∉ Fr →
          nval h d t₁ (ℓ + 1) i = subH h (updG N M g) (ℓ + 1) i := by
        intro i hdi hni
        have hlow : i + 1 < 2 ^ (N - ℓ) := by
          obtain ⟨_, h2⟩ := hdi
          have heq : N - 1 - ℓ + 1 = N - ℓ := by omega
          rwa [heq] at h2
        have ht01 : mget t₁ i = mget t₀ i := by
          rw [hsame i hdi hni]
          exact H4 i hlow
        have hd' : inDepth (N - (ℓ + 1)) i := by rwa [hDeq]
        have hg : nval h d t₀ (ℓ + 1) i = subH h g (ℓ + 1) i :=
          ht₀.1 (ℓ + 1) (by omega) i hd'
        have hcong : subH h g (ℓ + 1) i = subH h (updG N M g) (ℓ + 1) i := by
          apply subH_congr
          intro j hb1 hb2
          have hp1 : 2 ^ (ℓ + 1) * 2 ^ (N - 1 - ℓ) = 2 ^ N := by
            rw [← pow_add]; congr 1; omega
          have hp2 : 2 ^ (ℓ + 1) * 2 ^ (N - ℓ) = 2 ^ (N + 1) := by
            rw [← pow_add]; congr 1; omega
          have hjlo : 2 ^ N ≤ j + 1 := by
            calc 2 ^ N = 2 ^ (ℓ + 1) * 2 ^ (N - 1 - ℓ) := hp1.symm
            _ ≤ 2 ^ (ℓ + 1) * (i + 1) := Nat.mul_le_mul_left _ hdi.1
            _ ≤ j + 1 := hb1
          have hjhi : j + 1 < 2 ^ (N + 1) := by
            calc j + 1 < 2 ^ (ℓ + 1) * (i + 2) := hb2
            _ ≤ 2 ^ (ℓ + 1) * 2 ^ (N - ℓ) := by
                apply Nat.mul_le_mul_left
                have h2 := hdi.2
                have heq : N - 1 - ℓ + 1 = N - ℓ := by omega
                rw [heq] at h2
                omega
            _ = 2 ^ (N + 1) := hp2
          unfold updG
          cases hmg : mget M (j + 1 - 2 ^ N) with
          | none => rfl
          | some v =>
            exfalso
            have hkmem : (j + 1 - 2 ^ N, v) ∈ M := mem_of_mget hmg
            have hkb : j + 1 - 2 ^ N < 2 ^ N := by
              have hpow : 2 ^ (N + 1) = 2 * 2 ^ N := by ring
              omega
            have hjk : j = 2 ^ N - 1 + (j + 1 - 2 ^ N) := by
              have h1 : (1:Nat) ≤ 2 ^ N := Nat.one_le_two_pow
              omega
            have hancj : anc (ℓ + 1) j = i := by
              have hq := under_iff.mp ⟨hb1, hb2⟩
              unfold anc
              omega
            have : i ∈ Fr := by
              rw [H2 i]
              exact ⟨j + 1 - 2 ^ N, v, hkmem, by rw [← hjk, hancj]⟩
            exact hni this
        unfold nval at hg ⊢
        rw [ht01, hg, hcong]
      obtain ⟨t', hrun', hlev', hroot0', hrootS'⟩ :=
        ih (ℓ + 1) t₁ out (by omega) hc1
          (by
            intro m hm hmN i hdi
            rcases Nat.lt_or_ge m (ℓ + 1) with hmle | hmge
            · -- below the written level: untouched
              have hnd : ¬ inDepth (N - 1 - ℓ) i := by
                intro hc
                have := inDepth_unique (x := i + 1) hdi hc
                omega
              unfold nval
              rw [hother i hnd]
              exact H1 m (by omega) hmN i hdi
            · -- the written level
              have hme : m = ℓ + 1 := by omega
              subst hme
              rw [hDeq] at hdi
              by_cases hiF : i ∈ Fr
              · unfold nval
                rw [hwrVal i hiF]
                rfl
              · exact hkeep i hdi hiF)
          (by
            intro a
            rw [hout a]
            simp only [List.not_mem_nil, false_or]
            constructor
            · rintro ⟨i, hiF, hp⟩
              obtain ⟨k, v, hkv, rfl⟩ := (H2 i).mp hiF
              have hk : k < 2 ^ N := hM (k, v) hkv
              have hpos : 0 < anc (ℓ + 1) (2 ^ N - 1 + k) := by
                have := hFrDep _ hiF
                obtain ⟨hlo, _⟩ := this
                have : (2:Nat) ≤ 2 ^ (N - 1 - ℓ) :=
                  calc (2:Nat) = 2 ^ 1 := by ring
                  _ ≤ 2 ^ (N - 1 - ℓ) := Nat.pow_le_pow_right (by omega) hD1
                omega
              rw [anc_succ hpos] at hp
              obtain rfl := Option.some.inj hp
              exact ⟨k, v, hkv, rfl⟩
            · rintro ⟨k, v, hkv, rfl⟩
              have hk : k < 2 ^ N := hM (k, v) hkv
              refine ⟨anc (ℓ + 1) (2 ^ N - 1 + k), (H2 _).mpr ⟨k, v, hkv, rfl⟩, ?_⟩
              have hpos : 0 < anc (ℓ + 1) (2 ^ N - 1 + k) := by
                have hdp := anc_inDepth (m := ℓ + 1) (by omega)
                  (leaf_inDepth hk)
                obtain ⟨hlo, _⟩ := hdp
                have : (2:Nat) ≤ 2 ^ (N - (ℓ + 1)) :=
                  calc (2:Nat) = 2 ^ 1 := by ring
                  _ ≤ 2 ^ (N - (ℓ + 1)) :=
                    Nat.pow_le_pow_right (by omega) (by omega)
                omega
              rw [anc_succ hpos])
          (hpw' List.Pairwise.nil)
          (by
            intro j hj
            have hjd : N - (ℓ + 1) = N - 1 - ℓ := hDeq
            rw [hjd] at hj
            have hnd : ¬ inDepth (N - 1 - ℓ) j := by
              intro hc
              exact absurd hc.1 (by omega)
            rw [hother j hnd]
            apply H4
            have : 2 ^ (N - 1 - ℓ) ≤ 2 ^ (N - ℓ) :=
              Nat.pow_le_pow_right (by omega) (by omega)
            omega)
      refine ⟨t', ?_, hlev', hroot0', hrootS'⟩
      show insertLevels (liftH h) (ladder h d N)
          (ℓ :: List.range' (ℓ + 1) c' 1) t Fr = .ok t'
      simp only [insertLevels, heℓ, hrun₁]
      exact hrun'

/-- Full correctness of `insert_batch` with an infallible hasher, from
any state satisfying the tree invariant: the call succeeds, the
invariant holds for the updated leaf valuation, and a non-empty batch
materializes the root. -/
theorem insertBatch_correct {F : Type} [DecidableEq F]
    (h : F → F → F) (d : F) (N : Nat) (hN : 1 ≤ N)
    (t₀ : Map F) (g : Nat → F) (M : Map F)
    (ht₀ : TreeOK h d N t₀ g)
    (hM : ∀ p ∈ M, p.1 < 2 ^ N)
    (hnd : (M.map Prod.fst).Nodup) :
    ∃ t', insertBatch N (liftH h) ⟨t₀, ladder h d N⟩ M
        = .ok ⟨t', ladder h d N⟩ ∧
      TreeOK h d N t' (updG N M g) ∧
      (M ≠ [] → mget t' 0 = some (subH h (updG N M g) N 0)) ∧
      (M = [] → mget t' 0 = mget t₀ 0) := by
  have h2N : (2:Nat) ≤ 2 ^ N := by
    calc (2:Nat) = 2 ^ 1 := by ring
    _ ≤ 2 ^ N := Nat.pow_le_pow_right (by omega) hN
  obtain ⟨t₁, S₁, hrun₁, hwr, hun, hmem, hpw⟩ :=
    insertLeaves_spec hN M t₀ [] hM hnd
  have hleaf1 : ∀ k, k < 2 ^ N → 1 ≤ 2 ^ N - 1 + k := by omega
  -- level 0 of the invariant after the leaf writes
  have H1 : ∀ m, m ≤ 0 → m < N → LevelOK h d N t₁ (updG N M g) m := by
    intro m hm _ i hdi
    obtain rfl : m = 0 := by omega
    have hd0 : N - 0 = N := by omega
    rw [hd0] at hdi
    have hi1 : 2 ^ N ≤ i + 1 := hdi.1
    by_cases hex : ∃ k v, (k, v) ∈ M ∧ i = 2 ^ N - 1 + k
    · obtain ⟨k, v, hkv, rfl⟩ := hex
      have hmg : mget t₁ (2 ^ N - 1 + k) = some v := hwr k v hkv
      unfold nval
      rw [hmg]
      show v = subH h (updG N M g) 0 (2 ^ N - 1 + k)
      unfold subH updG
      have hslot : 2 ^ N - 1 + k + 1 - 2 ^ N = k := by omega
      rw [hslot, mget_of_mem_nodup hkv hnd]
      rfl
    · have hmg : mget t₁ i = mget t₀ i := hun i hex
      have hg0 : nval h d t₀ 0 i = subH h g 0 i := by
        apply ht₀.1 0 (by omega)
        rwa [hd0]
      have hgg' : updG N M g i = g i := by
        unfold updG
        cases hmge : mget M (i + 1 - 2 ^ N) with
        | none => rfl
        | some v =>
          exfalso
          exact hex ⟨i + 1 - 2 ^ N, v, mem_of_mget hmge, by omega⟩
      unfold nval at hg0 ⊢
      rw [hmg, hg0]
      show subH h g 0 i = subH h (updG N M g) 0 i
      unfold subH
      rw [hgg']
  have H2 : ∀ a, a ∈ S₁ ↔
      ∃ k v, (k, v) ∈ M ∧ a = anc (0 + 1) (2 ^ N - 1 + k) := by
    intro a
    rw [hmem a]
    simp only [List.not_mem_nil, false_or]
    constructor
    · rintro ⟨k, v, hkv, hp⟩
      have hk : k < 2 ^ N := hM (k, v) hkv
      rw [parentIdx_pos (by have := hleaf1 k hk; omega)] at hp
      obtain rfl := Option.some.inj hp
      refine ⟨k, v, hkv, ?_⟩
      unfold anc
      have := parent_one_based (i := 2 ^ N - 1 + k)
        (by have := hleaf1 k hk; omega)
      rw [this]
      simp
    · rintro ⟨k, v, hkv, rfl⟩
      have hk : k < 2 ^ N := hM (k, v) hkv
      refine ⟨k, v, hkv, ?_⟩
      rw [parentIdx_pos (by have := hleaf1 k hk; omega)]
      congr 1
      unfold anc
      have := parent_one_based (i := 2 ^ N - 1 + k)
        (by have := hleaf1 k hk; omega)
      rw [this]
      simp
  have H4 : ∀ j, j + 1 < 2 ^ (N - 0) → mget t₁ j = mget t₀ j := by
    intro j hj
    have hd0 : N - 0 = N := by omega
    rw [hd0] at hj
    apply hun
    rintro ⟨k, v, hkv, rfl⟩
    have hk : k < 2 ^ N := hM (k, v) hkv
    omega
  obtain ⟨t', hrun', hlev', hroot0', hrootS'⟩ :=
    insertLevels_run h d N hN t₀ g M ht₀ hM N 0 t₁ S₁ (by omega) hN
      H1 H2 (hpw List.Pairwise.nil) H4
  refine ⟨t', ?_, ⟨hlev', ?_⟩, hrootS', hroot0'⟩
  · show insertBatch N (liftH h) ⟨t₀, ladder h d N⟩ M = .ok ⟨t', ladder h d N⟩
    unfold insertBatch
    simp only [hrun₁]
    rw [List.range_eq_range']
    simp only [hrun']
  · by_cases hMe : M = []
    · subst hMe
      have hgg' : ∀ j, updG N ([] : Map F) g j = g j := fun j => rfl
      have hsub : subH h g N 0 = subH h (updG N ([] : Map F) g) N 0 :=
        subH_congr h N 0 (fun j _ _ => (hgg' j).symm)
      rcases ht₀.2 with hsome | ⟨hnone, hdef⟩
      · left
        rw [hroot0' rfl, hsome, hsub]
      · right
        refine ⟨by rw [hroot0' rfl]; exact hnone, ?_⟩
        intro j hj
        rw [hgg' j]
        exact hdef j hj
    · left
      exact hrootS' hMe

/-! ### `new`: the height check and construction from the empty map -/

theorem TreeOK_empty {F : Type} (h : F → F → F) (d : F) (N : Nat) :
    TreeOK h d N [] (fun _ => d) := by
  constructor
  · intro ℓ _ i _
    unfold nval
    show emptyH h d ℓ = subH h (fun _ => d) ℓ i
    exact (subH_empty h d ℓ i (fun _ _ _ => rfl)).symm
  · exact Or.inr ⟨rfl, fun _ _ => rfl⟩

theorem flog2Aux_eq_log2 : ∀ (fuel n : Nat), n ≤ fuel →
    flog2Aux fuel n = Nat.log2 n := by
  intro fuel
  induction fuel with
  | zero =>
    intro n hn
    obtain rfl : n = 0 := by omega
    simp [flog2Aux, Nat.log2]
  | succ fuel ih =>
    intro n hn
    unfold flog2Aux
    by_cases h2 : 2 ≤ n
    · rw [if_pos h2, ih (n / 2) (by
        have := Nat.div_lt_self (show 0 < n by omega) (show 1 < 2 by omega)
        omega)]
      conv_rhs => rw [Nat.log2]
      rw [if_pos h2]
    · rw [if_neg h2]
      conv_rhs => rw [Nat.log2]
      rw [if_neg h2]

theorem flog2_eq_log2 (n : Nat) : flog2 n = Nat.log2 n :=
  flog2Aux_eq_log2 n n (Nat.le_refl n)

theorem log2_pow_sub_one (k : Nat) : Nat.log2 (2 ^ (k + 1) - 1) = k := by
  rw [Nat.log2_eq_log_two]
  have hpow : 2 ^ (k + 1) = 2 * 2 ^ k := by ring
  have h1 : (1:Nat) ≤ 2 ^ k := Nat.one_le_two_pow
  apply le_antisymm
  · have hlt : 2 ^ (k + 1) - 1 < 2 ^ (k + 1) := by omega
    have := Nat.log_lt_of_lt_pow (by omega) hlt
    omega
  · exact (Nat.pow_le_iff_le_log (by omega) (by omega)).mp (by omega)

/-- The guard `assert!(tree_height <= N)` in `SparseMerkleTree::new`
passes iff the batch has at most `2^(N-1)` entries (truncated
subtraction: `2^0 = 1` slot allowed at `N = 0`). -/
theorem heightCheck_iff (N L : Nat) :
    rlog2 (2 * nextPow2 L - 1) ≤ N ↔ L ≤ 2 ^ (N - 1) := by
  by_cases hL : L ≤ 1
  · have h1 : nextPow2 L = 1 := by simp [nextPow2, hL]
    rw [h1]
    have : (2 * 1 - 1 : Nat) = 1 := by omega
    rw [this]
    have hr : rlog2 1 = 0 := by
      unfold rlog2
      have hl1 : flog2 1 = 0 := by
        rw [flog2_eq_log2, Nat.log2_eq_log_two]
        exact Nat.log_one_right 2
      simp [hl1]
    rw [hr]
    have : (1:Nat) ≤ 2 ^ (N - 1) := Nat.one_le_two_pow
    constructor <;> intro <;> omega
  · have hL2 : 2 ≤ L := by omega
    have hnp : nextPow2 L = 2 ^ (flog2 (L - 1) + 1) := by
      unfold nextPow2
      rw [if_neg (by omega)]
    rw [hnp]
    obtain ⟨k, hk⟩ : ∃ k, flog2 (L - 1) + 1 = k + 1 := ⟨_, rfl⟩
    rw [hk]
    have hx : 2 * 2 ^ (k + 1) - 1 = 2 ^ (k + 2) - 1 := by
      have : (2:Nat) ^ (k + 2) = 2 * 2 ^ (k + 1) := by ring
      omega
    rw [hx]
    have h1 : (1:Nat) ≤ 2 ^ (k + 1) := Nat.one_le_two_pow
    have hpow : (2:Nat) ^ (k + 2) = 2 * 2 ^ (k + 1) := by ring
    have hlog : flog2 (2 ^ (k + 2) - 1) = k + 1 := by
      rw [flog2_eq_log2]
      exact log2_pow_sub_one (k + 1)
    have hrl : rlog2 (2 ^ (k + 2) - 1) = k + 2 := by
      unfold rlog2
      rw [if_neg (by omega), hlog, if_neg (by omega)]
    rw [hrl]
    -- now: k + 2 ≤ N ↔ L ≤ 2 ^ (N - 1), where k = log2 (L - 1)
    have hkL : Nat.log2 (L - 1) = k := by
      have := flog2_eq_log2 (L - 1)
      omega
    rcases Nat.lt_or_ge N 2 with hN2 | hN2
    · have hR : ¬ L ≤ 2 ^ (N - 1) := by
        have : N - 1 = 0 := by omega
        rw [this]
        simp
        omega
      constructor
      · intro hc; omega
      · intro hc; exact absurd hc hR
    · obtain ⟨N', hN'⟩ : ∃ n, N = n + 2 := ⟨N - 2, by omega⟩
      subst hN'
      have hiff : L - 1 < 2 ^ (N' + 1) ↔ Nat.log 2 (L - 1) < N' + 1 :=
        Nat.lt_pow_iff_log_lt (by omega) (by omega)
      rw [Nat.log2_eq_log_two] at hkL
      have : N' + 2 - 1 = N' + 1 := by omega
      rw [this]
      constructor
      · intro hc
        have : Nat.log 2 (L - 1) < N' + 1 := by omega
        have := hiff.mpr this
        omega
      · intro hc
        have : L - 1 < 2 ^ (N' + 1) := by omega
        have := hiff.mp this
        omega

theorem insertLeaves_no_overflow {F : Type} {lli : Nat} :
    ∀ (M : Map F) (t : Map F) (acc : List Nat),
      insertLeaves lli t acc M ≠ .error .heightOverflow := by
  intro M
  induction M with
  | nil => intro t acc hc; simp [insertLeaves] at hc
  | cons p rest ih =>
    intro t acc
    obtain ⟨k, v⟩ := p
    simp only [insertLeaves]
    cases hp : parentIdx (lli + k) with
    | none => simp
    | some q => exact ih _ _

theorem insertLevel_no_overflow {F : Type} [DecidableEq F]
    {hasher : F → F → Option F} {e : F} :
    ∀ (idxs : List Nat) (t : Map F) (acc : List Nat),
      insertLevel hasher e t idxs acc ≠ .error .heightOverflow := by
  intro idxs
  induction idxs with
  | nil => intro t acc hc; simp [insertLevel] at hc
  | cons i rest ih =>
    intro t acc
    simp only [insertLevel]
    cases hasher ((mget t (leftChild i)).getD e) ((mget t (rightChild i)).getD e) with
    | none => simp
    | some hv =>
      cases parentIdx i with
      | none => simp
      | some p => exact ih _ _

theorem insertLevels_no_overflow {F : Type} [DecidableEq F]
    {hasher : F → F → Option F} {eh : List F} :
    ∀ (levels : List Nat) (t : Map F) (idxs : List Nat),
      insertLevels hasher eh levels t idxs ≠ .error .heightOverflow := by
  intro levels
  induction levels with
  | nil => intro t idxs hc; simp [insertLevels] at hc
  | cons level rest ih =>
    intro t idxs hc
    simp only [insertLevels, List.get?_eq_getElem?] at hc
    cases heh : eh[level]? with
    | none => simp [heh] at hc
    | some e =>
      simp only [heh] at hc
      cases hrun : insertLevel hasher e t idxs [] with
      | error er =>
        simp only [hrun] at hc
        injection hc with h1
        exact insertLevel_no_overflow idxs t [] (h1 ▸ hrun)
      | ok pair =>
        obtain ⟨t1, nx⟩ := pair
        simp only [hrun] at hc
        exact ih t1 nx hc

theorem insertBatch_no_overflow {F : Type} [DecidableEq F]
    {N : Nat} {hasher : F → F → Option F} {s : Smt F} {M : Map F} :
    insertBatch N hasher s M ≠ .error .heightOverflow := by
  intro hc
  unfold insertBatch at hc
  cases hrun : insertLeaves (2 ^ N - 1) s.tree [] M with
  | error e =>
    simp only [hrun] at hc
    injection hc with h1
    exact insertLeaves_no_overflow M s.tree [] (h1 ▸ hrun)
  | ok pair =>
    obtain ⟨t1, nx⟩ := pair
    simp only [hrun] at hc
    cases hrun2 : insertLevels hasher s.empty_hashes (List.range N) t1 nx with
    | error e =>
      simp only [hrun2] at hc
      injection hc with h1
      exact insertLevels_no_overflow (List.range N) t1 nx (h1 ▸ hrun2)
    | ok t' => simp [hrun2] at hc

/-- `SparseMerkleTree::new` with an infallible hasher and an in-bounds
batch: the construction succeeds, returns the canonical ladder, and
the resulting node map satisfies the tree invariant for the batch's
leaf valuation. -/
theorem newSmt_run {F : Type} [DecidableEq F]
    (h : F → F → F) (d : F) (N : Nat) (hN : 1 ≤ N) (M : Map F)
    (hlen : M.length ≤ 2 ^ (N - 1))
    (hM : ∀ p ∈ M, p.1 < 2 ^ N)
    (hnd : (M.map Prod.fst).Nodup) :
    ∃ t', newSmt N (liftH h) M d = .ok ⟨t', ladder h d N⟩ ∧
      TreeOK h d N t' (updG N M (fun _ => d)) ∧
      (M ≠ [] → mget t' 0 = some (subH h (updG N M (fun _ => d)) N 0)) ∧
      (M = [] → mget t' 0 = none) := by
  obtain ⟨t', hrun, hok, hroot, hroot0⟩ :=
    insertBatch_correct h d N hN [] (fun _ => d) M
      (TreeOK_empty h d N) hM hnd
  refine ⟨t', ?_, hok, hroot, hroot0⟩
  unfold newSmt
  rw [if_pos ((heightCheck_iff N M.length).mpr hlen),
    genEmptyHashes_lift h N d]
  exact hrun

/-! ### `batch_prove`: partial-map soundness and coverage -/



theorem sibIdx_ne {node : Nat} (hn : node ≠ 0) : sibIdx node ≠ node := by
  unfold sibIdx
  split <;> omega

theorem anc_parent {m node : Nat} (hn : node ≠ 0) :
    anc m ((node - 1) / 2) = anc (m + 1) node := by
  unfold anc
  have h1 : (node - 1) / 2 + 1 = (node + 1) / 2 := by omega
  rw [h1, Nat.div_div_eq_div_mul, pow_succ, mul_comm (2 ^ m) 2,
    ← Nat.div_div_eq_div_mul]

/-- Agreement at a node survives later canonical insertions. -/
theorem agree_persist {F : Type} [DecidableEq F]
    {h : F → F → F} {d : F} {N : Nat} {t pt pt' : Map F} {ℓ j : Nat}
    (hS : Sound h d N t pt')
    (hmono : ∀ j', mget pt' j' = none → mget pt j' = none)
    (hA : AgreeAt h d t pt ℓ j) (hℓ : ℓ < N) (hdj : inDepth (N - ℓ) j) :
    AgreeAt h d t pt' ℓ j := by
  unfold AgreeAt at *
  cases hmg : mget pt' j with
  | some v =>
    obtain ⟨ℓ', hℓ', hd', hv, _⟩ := hS j v hmg
    have : N - ℓ' = N - ℓ := inDepth_unique (x := j + 1) hd' hdj
    have : ℓ' = ℓ := by omega
    subst this
    simpa [hmg] using hv
  | none =>
    have h0 := hmono j hmg
    rw [h0] at hA
    simpa [hmg] using hA


/-- One step of the `batch_prove` walk, unfolded. -/
theorem walkF_step {F : Type} [DecidableEq F] (t : Map F) (eh : List F)
    (fuel : Nat) (pt : Map F) (node level : Nat) (hn : ¬ node = 0)
    (e : F) (heh : eh.get? level = some e) :
    walkF t eh (fuel + 1) pt node level =
      walkF t eh fuel (proveStep t pt e node) ((node - 1) / 2) (level + 1) := by
  simp only [walkF, if_neg hn, heh, proveStep]

theorem proveStep_mono {F : Type} [DecidableEq F] {t pt : Map F} {e : F}
    {node j : Nat} (hj : mget (proveStep t pt e node) j = none) :
    mget pt j = none := by
  unfold proveStep at hj
  by_cases h2 : (mget t (sibIdx node)).getD e ≠ e
  · rw [if_pos h2] at hj
    have hj' := mget_none_of_minsert_none hj
    by_cases h1 : (mget t node).getD e ≠ e
    · rw [if_pos h1] at hj'
      exact mget_none_of_minsert_none hj'
    · rwa [if_neg h1] at hj'
  · rw [if_neg h2] at hj
    by_cases h1 : (mget t node).getD e ≠ e
    · rw [if_pos h1] at hj
      exact mget_none_of_minsert_none hj
    · rwa [if_neg h1] at hj

theorem Sound_minsert {F : Type} [DecidableEq F]
    {h : F → F → F} {d : F} {N : Nat} {t pt : Map F} {ℓ j : Nat} {mv : F}
    (hS : Sound h d N t pt) (hℓ : ℓ < N) (hdj : inDepth (N - ℓ) j)
    (hv : mv = nval h d t ℓ j) (hne : mv ≠ emptyH h d ℓ) :
    Sound h d N t (minsert pt j mv) := by
  intro j' v' hget
  by_cases hj : j = j'
  · subst hj
    rw [mget_minsert_self] at hget
    obtain rfl := Option.some.inj hget
    exact ⟨ℓ, hℓ, hdj, hv, hne⟩
  · rw [mget_minsert_ne _ _ hj] at hget
    exact hS j' v' hget

theorem proveStep_sound {F : Type} [DecidableEq F]
    {h : F → F → F} {d : F} {N : Nat} {t pt : Map F} {ℓ node : Nat}
    (hS : Sound h d N t pt) (hℓ : ℓ < N)
    (hdn : inDepth (N - ℓ) node) (hds : inDepth (N - ℓ) (sibIdx node)) :
    Sound h d N t (proveStep t pt (emptyH h d ℓ) node) := by
  unfold proveStep
  by_cases h1 : (mget t node).getD (emptyH h d ℓ) ≠ emptyH h d ℓ
  · by_cases h2 : (mget t (sibIdx node)).getD (emptyH h d ℓ) ≠ emptyH h d ℓ
    · rw [if_pos h2, if_pos h1]
      exact Sound_minsert (Sound_minsert hS hℓ hdn rfl h1) hℓ hds rfl h2
    · rw [if_neg h2, if_pos h1]
      exact Sound_minsert hS hℓ hdn rfl h1
  · by_cases h2 : (mget t (sibIdx node)).getD (emptyH h d ℓ) ≠ emptyH h d ℓ
    · rw [if_pos h2, if_neg h1]
      exact Sound_minsert hS hℓ hds rfl h2
    · rw [if_neg h2, if_neg h1]
      exact hS

theorem proveStep_agree_node {F : Type} [DecidableEq F]
    {h : F → F → F} {d : F} {N : Nat} {t pt : Map F} {ℓ node : Nat}
    (hS : Sound h d N t pt) (hℓ : ℓ < N) (hn : node ≠ 0)
    (hdn : inDepth (N - ℓ) node) :
    AgreeAt h d t (proveStep t pt (emptyH h d ℓ) node) ℓ node := by
  unfold AgreeAt proveStep
  by_cases h1 : (mget t node).getD (emptyH h d ℓ) ≠ emptyH h d ℓ
  · by_cases h2 : (mget t (sibIdx node)).getD (emptyH h d ℓ) ≠ emptyH h d ℓ
    · rw [if_pos h2, if_pos h1,
        mget_minsert_ne _ _ (sibIdx_ne hn), mget_minsert_self]
      rfl
    · rw [if_neg h2, if_pos h1, mget_minsert_self]
      rfl
  · -- current value is the empty hash: nothing recorded here
    have hcur : nval h d t ℓ node = emptyH h d ℓ := by
      unfold nval
      exact of_not_not h1
    have hbase : (mget pt node).getD (emptyH h d ℓ) = nval h d t ℓ node := by
      cases hmg : mget pt node with
      | some v =>
        obtain ⟨ℓ', hℓ', hd', hv, _⟩ := hS node v hmg
        have : N - ℓ' = N - ℓ := inDepth_unique (x := node + 1) hd' hdn
        have : ℓ' = ℓ := by omega
        subst this
        simp [hv]
      | none => simp [hcur]
    by_cases h2 : (mget t (sibIdx node)).getD (emptyH h d ℓ) ≠ emptyH h d ℓ
    · rw [if_pos h2, if_neg h1, mget_minsert_ne _ _ (sibIdx_ne hn)]
      exact hbase
    · rw [if_neg h2, if_neg h1]
      exact hbase

theorem proveStep_agree_sib {F : Type} [DecidableEq F]
    {h : F → F → F} {d : F} {N : Nat} {t pt : Map F} {ℓ node : Nat}
    (hS : Sound h d N t pt) (hℓ : ℓ < N) (hn : node ≠ 0)
    (hds : inDepth (N - ℓ) (sibIdx node)) :
    AgreeAt h d t (proveStep t pt (emptyH h d ℓ) node) ℓ (sibIdx node) := by
  unfold AgreeAt proveStep
  by_cases h2 : (mget t (sibIdx node)).getD (emptyH h d ℓ) ≠ emptyH h d ℓ
  · by_cases h1 : (mget t node).getD (emptyH h d ℓ) ≠ emptyH h d ℓ
    · rw [if_pos h2, if_pos h1, mget_minsert_self]
      rfl
    · rw [if_pos h2, if_neg h1, mget_minsert_self]
      rfl
  · have hsv : nval h d t ℓ (sibIdx node) = emptyH h d ℓ := by
      unfold nval
      exact of_not_not h2
    have hbase : (mget pt (sibIdx node)).getD (emptyH h d ℓ)
        = nval h d t ℓ (sibIdx node) := by
      cases hmg : mget pt (sibIdx node) with
      | some v =>
        obtain ⟨ℓ', hℓ', hd', hv, _⟩ := hS (sibIdx node) v hmg
        have : N - ℓ' = N - ℓ := inDepth_unique (x := sibIdx node + 1) hd' hds
        have : ℓ' = ℓ := by omega
        subst this
        simp [hv]
      | none => simp [hsv]
    by_cases h1 : (mget t node).getD (emptyH h d ℓ) ≠ emptyH h d ℓ
    · rw [if_neg h2, if_pos h1,
        mget_minsert_ne _ _ (fun hc => (sibIdx_ne hn) hc.symm)]
      exact hbase
    · rw [if_neg h2, if_neg h1]
      exact hbase

/-- Main specification of the `batch_prove` walk: it never panics when
started from a node at depth `N - level`, it preserves soundness, it
never deletes entries, and afterwards the partial map agrees with the
full tree on the whole visited ancestor/sibling chain. -/
theorem walkF_spec {F : Type} [DecidableEq F]
    (h : F → F → F) (d : F) (N : Nat) (t : Map F) :
    ∀ (fuel node level : Nat) (pt : Map F),
      node < fuel →
      inDepth (N - level) node →
      level ≤ N →
      Sound h d N t pt →
      ∃ pt', walkF t (ladder h d N) fuel pt node level = some pt' ∧
        Sound h d N t pt' ∧
        (∀ j, mget pt' j = none → mget pt j = none) ∧
        (∀ m, m < N - level →
          AgreeAt h d t pt' (level + m) (anc m node) ∧
          AgreeAt h d t pt' (level + m) (sibIdx (anc m node))) := by
  intro fuel
  induction fuel with
  | zero => intro node level pt hf; omega
  | succ fuel ih =>
    intro node level pt hf hdep hlevN hS
    by_cases hn : node = 0
    · subst hn
      have hd0 : N - level = 0 := inDepth_zero_iff.mp hdep
      refine ⟨pt, by simp [walkF], hS, fun _ hj => hj, ?_⟩
      intro m hm
      omega
    · have hDpos : 1 ≤ N - level := by
        by_contra hc
        have h0 : N - level = 0 := by omega
        rw [h0] at hdep
        obtain ⟨_, hb⟩ := hdep
        exact hn (by omega)
      have hlev : level < N := by omega
      have heh := ladder_get h d hlev
      rw [walkF_step t _ fuel pt node level hn _ heh]
      obtain ⟨D, hD⟩ : ∃ D, N - level = D + 1 := ⟨N - level - 1, by omega⟩
      have hdn' : inDepth (D + 1) node := hD ▸ hdep
      have hds' : inDepth (D + 1) (sibIdx node) := inDepth_sib hdn'
      have hds : inDepth (N - level) (sibIdx node) := hD ▸ hds'
      have hS₂ : Sound h d N t (proveStep t pt (emptyH h d level) node) :=
        proveStep_sound hS hlev hdep hds
      have hpar_dep : inDepth (N - (level + 1)) ((node - 1) / 2) := by
        have := inDepth_parent hdn'
        have heq : N - (level + 1) = D := by omega
        rwa [heq]
      obtain ⟨pt', hrun, hS', hmono', hAg'⟩ :=
        ih ((node - 1) / 2) (level + 1) (proveStep t pt (emptyH h d level) node)
          (by
            have h1 : (node - 1) / 2 < node := by
              have := Nat.div_le_self (node - 1) 2
              omega
            omega)
          hpar_dep (by omega) hS₂
      refine ⟨pt', hrun, hS', ?_, ?_⟩
      · intro j hj
        exact proveStep_mono (hmono' j hj)
      · intro m hm
        cases m with
        | zero =>
          rw [anc_zero, Nat.add_zero]
          constructor
          · exact agree_persist hS' hmono'
              (proveStep_agree_node hS hlev hn hdep) hlev hdep
          · exact agree_persist hS' hmono'
              (proveStep_agree_sib hS hlev hn hds) hlev hds
        | succ m =>
          have hm' : m < N - (level + 1) := by omega
          obtain ⟨hA1, hA2⟩ := hAg' m hm'
          rw [anc_parent hn] at hA1 hA2
          have heq : level + 1 + m = level + (m + 1) := by omega
          rw [heq] at hA1 hA2
          exact ⟨hA1, hA2⟩

theorem walkAll_spec {F : Type} [DecidableEq F]
    (h : F → F → F) (d : F) (N : Nat) (hN : 1 ≤ N) (t : Map F) :
    ∀ (S : List Nat) (pt : Map F),
      (∀ k ∈ S, k < 2 ^ N) → Sound h d N t pt →
      ∃ pt', walkAll N t (ladder h d N) pt S = some pt' ∧
        Sound h d N t pt' ∧
        (∀ j, mget pt' j = none → mget pt j = none) ∧
        (∀ k ∈ S, ∀ m, m < N →
          AgreeAt h d t pt' m (anc m (2 ^ N - 1 + k)) ∧
          AgreeAt h d t pt' m (sibIdx (anc m (2 ^ N - 1 + k)))) := by
  intro S
  induction S with
  | nil =>
    intro pt _ hS
    exact ⟨pt, rfl, hS, fun _ hj => hj, by simp⟩
  | cons k rest ih =>
    intro pt hb hS
    have hk : k < 2 ^ N := hb k (List.mem_cons_self _ _)
    have hti : toLastLevel k N = 2 ^ N - 1 + k := by
      unfold toLastLevel
      have : (1:Nat) ≤ 2 ^ N := Nat.one_le_two_pow
      omega
    have hdleaf : inDepth (N - 0) (toLastLevel k N) := by
      rw [hti]
      have : N - 0 = N := by omega
      rw [this]
      exact leaf_inDepth hk
    obtain ⟨pt₂, hrun₂, hS₂, hmono₂, hAg₂⟩ :=
      walkF_spec h d N t (toLastLevel k N + 1) (toLastLevel k N) 0 pt
        (by omega) hdleaf (by omega) hS
    obtain ⟨pt', hrun', hS', hmono', hAg'⟩ :=
      ih pt₂ (fun k' hk' => hb k' (List.mem_cons_of_mem _ hk')) hS₂
    refine ⟨pt', ?_, hS', fun j hj => hmono₂ j (hmono' j hj), ?_⟩
    · simp only [walkAll, hrun₂]
      exact hrun'
    · intro k' hk' m hm
      rcases List.mem_cons.mp hk' with rfl | hmem
      · have hdm : inDepth (N - m) (anc m (2 ^ N - 1 + k')) :=
          anc_inDepth (by omega) (leaf_inDepth hk)
        obtain ⟨Dm, hDm⟩ : ∃ Dm, N - m = Dm + 1 := ⟨N - m - 1, by omega⟩
        have hdm' : inDepth (Dm + 1) (anc m (2 ^ N - 1 + k')) := hDm ▸ hdm
        have hdsib : inDepth (N - m) (sibIdx (anc m (2 ^ N - 1 + k'))) :=
          hDm ▸ inDepth_sib hdm'
        obtain ⟨hA1, hA2⟩ := hAg₂ m (by omega)
        rw [hti] at hA1 hA2
        simp only [Nat.zero_add] at hA1 hA2
        exact ⟨agree_persist hS' hmono' hA1 hm hdm,
          agree_persist hS' hmono' hA2 hm hdsib⟩
      · exact hAg' k' hmem m hm

/-- `batch_prove` on an in-range slot list: no panic, and the partial
tree is the original ladder, the slot list, the root value, and a
sound, covering sub-skeleton. -/
theorem batchProve_spec {F : Type} [DecidableEq F]
    (h : F → F → F) (d : F) (N : Nat) (hN : 1 ≤ N) (t : Map F)
    (S : List Nat) (hb : ∀ k ∈ S, k < 2 ^ N) :
    ∃ ptm, batchProve N ⟨t, ladder h d N⟩ S = some
        { tree := ptm, empty_hashes := ladder h d N, leaves := S,
          root := (mget t 0).getD (emptyH h d (N - 1)) } ∧
      Sound h d N t ptm ∧
      (∀ k ∈ S, ∀ m, m < N →
        AgreeAt h d t ptm m (anc m (2 ^ N - 1 + k)) ∧
        AgreeAt h d t ptm m (sibIdx (anc m (2 ^ N - 1 + k)))) := by
  obtain ⟨ptm, hrun, hS, _, hAg⟩ :=
    walkAll_spec h d N hN t S [] hb (fun j v hj => by simp [mget] at hj)
  refine ⟨ptm, ?_, hS, hAg⟩
  unfold batchProve Smt.root
  simp only [ladder_getLast h d (by omega : 0 < N), hrun]

/-! ### `PartialTree::verify` -/

theorem initFrontier_spec {N : Nat} (hN : 1 ≤ N) :
    ∀ (S : List Nat) (acc : List Nat),
      ∃ out, initFrontier N acc S = .ok out ∧
        (∀ a, a ∈ out ↔ a ∈ acc ∨ ∃ k ∈ S, a = anc 1 (2 ^ N - 1 + k)) ∧
        (acc.Pairwise (· < ·) → out.Pairwise (· < ·)) := by
  intro S
  induction S with
  | nil =>
    intro acc
    refine ⟨acc, rfl, ?_, fun z => z⟩
    simp
  | cons k rest ih =>
    intro acc
    have hpos : 0 < 2 ^ N - 1 + k := by
      have : (2:Nat) ≤ 2 ^ N :=
        calc (2:Nat) = 2 ^ 1 := by ring
        _ ≤ 2 ^ N := Nat.pow_le_pow_right (by omega) hN
      omega
    have hpar : parentIdx (2 ^ N - 1 + k) = some ((2 ^ N - 1 + k - 1) / 2) :=
      parentIdx_pos hpos
    have hanc : (2 ^ N - 1 + k - 1) / 2 = anc 1 (2 ^ N - 1 + k) := by
      unfold anc
      rw [parent_one_based hpos]
      simp
    obtain ⟨out, hrun, hmem, hpw⟩ := ih (sinsert ((2 ^ N - 1 + k - 1) / 2) acc)
    refine ⟨out, ?_, ?_, ?_⟩
    · simp only [initFrontier, hpar]
      exact hrun
    · intro a
      rw [hmem a, mem_sinsert]
      constructor
      · rintro ((rfl | ha) | ⟨k', hk', rfl⟩)
        · exact Or.inr ⟨k, List.mem_cons_self _ _, hanc⟩
        · exact Or.inl ha
        · exact Or.inr ⟨k', List.mem_cons_of_mem _ hk', rfl⟩
      · rintro (ha | ⟨k', hk', rfl⟩)
        · exact Or.inl (Or.inr ha)
        · rcases List.mem_cons.mp hk' with rfl | hmem'
          · exact Or.inl (Or.inl hanc.symm)
          · exact Or.inr ⟨k', hmem', rfl⟩
    · intro hacc
      exact hpw (pairwise_sinsert hacc)

theorem verifyLevel_spec {F : Type} [DecidableEq F]
    (h : F → F → F) (ptm : Map F) (eC eP : F) :
    ∀ (idxs : List Nat) (acc : List Nat),
      (∀ i ∈ idxs, h ((mget ptm (leftChild i)).getD eC)
          ((mget ptm (rightChild i)).getD eC) = (mget ptm i).getD eP) →
      (∀ i ∈ idxs, i ≠ 0) →
      ∃ out, verifyLevel (liftH h) ptm eC eP idxs acc = .ok out ∧
        (∀ a, a ∈ out ↔ a ∈ acc ∨ ∃ i ∈ idxs, parentIdx i = some a) ∧
        (acc.Pairwise (· < ·) → out.Pairwise (· < ·)) := by
  intro idxs
  induction idxs with
  | nil =>
    intro acc _ _
    refine ⟨acc, rfl, ?_, fun z => z⟩
    simp
  | cons i rest ih =>
    intro acc hchk hnz
    have hci := hchk i (List.mem_cons_self _ _)
    have hi0 : i ≠ 0 := hnz i (List.mem_cons_self _ _)
    have hpar : parentIdx i = some ((i - 1) / 2) := parentIdx_pos (by omega)
    obtain ⟨out, hrun, hmem, hpw⟩ :=
      ih (sinsert ((i - 1) / 2) acc)
        (fun i' hi' => hchk i' (List.mem_cons_of_mem _ hi'))
        (fun i' hi' => hnz i' (List.mem_cons_of_mem _ hi'))
    refine ⟨out, ?_, ?_, ?_⟩
    · simp only [verifyLevel, liftH, if_pos hci, hpar]
      exact hrun
    · intro a
      rw [hmem a, mem_sinsert]
      constructor
      · rintro ((rfl | ha) | ⟨i', hi', hp⟩)
        · exact Or.inr ⟨i, List.mem_cons_self _ _, hpar⟩
        · exact Or.inl ha
        · exact Or.inr ⟨i', List.mem_cons_of_mem _ hi', hp⟩
      · rintro (ha | ⟨i', hi', hp⟩)
        · exact Or.inl (Or.inr ha)
        · rcases List.mem_cons.mp hi' with rfl | hr
          · rw [hpar] at hp
            obtain rfl := Option.some.inj hp
            exact Or.inl (Or.inl rfl)
          · exact Or.inr ⟨i', hr, hp⟩
    · intro hacc
      exact hpw (pairwise_sinsert hacc)

/-- The level loop of `verify` succeeds on a sound, covering partial
map of a tree satisfying the level invariants. -/
theorem verifyLevels_run {F : Type} [DecidableEq F]
    (h : F → F → F) (d : F) (N : Nat) (t ptm : Map F) (g : Nat → F)
    (S : List Nat)
    (htree : ∀ m, m < N → LevelOK h d N t g m)
    (hb : ∀ k ∈ S, k < 2 ^ N)
    (hAg : ∀ k ∈ S, ∀ m, m < N →
      AgreeAt h d t ptm m (anc m (2 ^ N - 1 + k)) ∧
      AgreeAt h d t ptm m (sibIdx (anc m (2 ^ N - 1 + k)))) :
    ∀ (c ℓ : Nat) (idxs : List Nat),
      ℓ + c = N - 1 →
      (∀ a, a ∈ idxs ↔ ∃ k ∈ S, a = anc (ℓ + 1) (2 ^ N - 1 + k)) →
      idxs.Pairwise (· < ·) →
      verifyLevels (liftH h) ptm (ladder h d N) (List.range' ℓ c 1) idxs
        = .ok () := by
  intro c
  induction c with
  | zero => intro ℓ idxs _ _ _; rfl
  | succ c' ih =>
    intro ℓ idxs hsum hmem hpw
    have hN : 1 ≤ N := by omega
    have hℓ : ℓ < N - 1 := by omega
    have heC := ladder_get h d (show ℓ < N by omega)
    have heP := ladder_get h d (show ℓ + 1 < N by omega)
    -- elements of the frontier and their geometry
    have hdep : ∀ i ∈ idxs, inDepth (N - (ℓ + 1)) i := by
      intro i hi
      obtain ⟨k, hk, rfl⟩ := (hmem i).mp hi
      exact anc_inDepth (by omega) (leaf_inDepth (hb k hk))
    have hnz : ∀ i ∈ idxs, i ≠ 0 := by
      intro i hi
      obtain ⟨hlo, _⟩ := hdep i hi
      have : (2:Nat) ≤ 2 ^ (N - (ℓ + 1)) :=
        calc (2:Nat) = 2 ^ 1 := by ring
        _ ≤ 2 ^ (N - (ℓ + 1)) := Nat.pow_le_pow_right (by omega) (by omega)
      omega
    have hchk : ∀ i ∈ idxs,
        h ((mget ptm (leftChild i)).getD (emptyH h d ℓ))
          ((mget ptm (rightChild i)).getD (emptyH h d ℓ))
          = (mget ptm i).getD (emptyH h d (ℓ + 1)) := by
      intro i hi
      obtain ⟨k, hk, rfl⟩ := (hmem i).mp hi
      have hkb : k < 2 ^ N := hb k hk
      -- the child on the walked path and its sibling
      have hcpos : 0 < anc ℓ (2 ^ N - 1 + k) := by
        obtain ⟨hlo, _⟩ := anc_inDepth (m := ℓ) (by omega) (leaf_inDepth hkb)
        have : (2:Nat) ≤ 2 ^ (N - ℓ) :=
          calc (2:Nat) = 2 ^ 1 := by ring
          _ ≤ 2 ^ (N - ℓ) := Nat.pow_le_pow_right (by omega) (by omega)
        omega
      have hpc : parentIdx (anc ℓ (2 ^ N - 1 + k))
          = some (anc (ℓ + 1) (2 ^ N - 1 + k)) := anc_succ hcpos
      obtain ⟨hAc, hAs⟩ := hAg k hk ℓ (by omega)
      obtain ⟨hAp, _⟩ := hAg k hk (ℓ + 1) (by omega)
      -- readings of both children agree with the full tree
      have hreadL : (mget ptm (leftChild (anc (ℓ + 1) (2 ^ N - 1 + k)))).getD (emptyH h d ℓ)
          = nval h d t ℓ (leftChild (anc (ℓ + 1) (2 ^ N - 1 + k))) := by
        rcases sib_of_child hpc with ⟨hcl, hcs⟩ | ⟨hcl, hcs⟩
        · rw [← hcl]; exact hAc
        · rw [← hcs]; exact hAs
      have hreadR : (mget ptm (rightChild (anc (ℓ + 1) (2 ^ N - 1 + k)))).getD (emptyH h d ℓ)
          = nval h d t ℓ (rightChild (anc (ℓ + 1) (2 ^ N - 1 + k))) := by
        rcases sib_of_child hpc with ⟨hcl, hcs⟩ | ⟨hcl, hcs⟩
        · rw [← hcs]; exact hAs
        · rw [← hcl]; exact hAc
      rw [hreadL, hreadR, hAp]
      -- both sides are subtree hashes by the level invariants
      have hdi : inDepth (N - (ℓ + 1)) (anc (ℓ + 1) (2 ^ N - 1 + k)) :=
        anc_inDepth (by omega) (leaf_inDepth hkb)
      obtain ⟨Dm, hDm⟩ : ∃ Dm, N - (ℓ + 1) = Dm + 1 := ⟨N - (ℓ + 1) - 1, by omega⟩
      have hdi' : inDepth (Dm + 1) (anc (ℓ + 1) (2 ^ N - 1 + k)) := hDm ▸ hdi
      have hdl : inDepth (N - ℓ) (leftChild (anc (ℓ + 1) (2 ^ N - 1 + k))) := by
        have := inDepth_leftChild hdi'
        have heq : Dm + 1 + 1 = N - ℓ := by omega
        rwa [heq] at this
      have hdr : inDepth (N - ℓ) (rightChild (anc (ℓ + 1) (2 ^ N - 1 + k))) := by
        have := inDepth_rightChild hdi'
        have heq : Dm + 1 + 1 = N - ℓ := by omega
        rwa [heq] at this
      rw [htree ℓ (by omega) _ hdl, htree ℓ (by omega) _ hdr,
        htree (ℓ + 1) (by omega) _ hdi]
      rfl
    obtain ⟨out, hrun, hout, hpw'⟩ :=
      verifyLevel_spec h ptm (emptyH h d ℓ) (emptyH h d (ℓ + 1)) idxs [] hchk hnz
    have hrec := ih (ℓ + 1) out (by omega)
      (by
        intro a
        rw [hout a]
        simp only [List.not_mem_nil, false_or]
        constructor
        · rintro ⟨i, hi, hp⟩
          obtain ⟨k, hk, rfl⟩ := (hmem i).mp hi
          have hppos : 0 < anc (ℓ + 1) (2 ^ N - 1 + k) := by
            have := hnz _ hi
            omega
          rw [anc_succ hppos] at hp
          obtain rfl := Option.some.inj hp
          exact ⟨k, hk, rfl⟩
        · rintro ⟨k, hk, rfl⟩
          refine ⟨anc (ℓ + 1) (2 ^ N - 1 + k), (hmem _).mpr ⟨k, hk, rfl⟩, ?_⟩
          have hppos : 0 < anc (ℓ + 1) (2 ^ N - 1 + k) := by
            have hin : anc (ℓ + 1) (2 ^ N - 1 + k) ∈ idxs :=
              (hmem _).mpr ⟨k, hk, rfl⟩
            have := hnz _ hin
            omega
          rw [anc_succ hppos])
      (hpw' List.Pairwise.nil)
    show verifyLevels (liftH h) ptm (ladder h d N)
        (ℓ :: List.range' (ℓ + 1) c' 1) idxs = .ok ()
    simp only [verifyLevels, heC, heP, hrun]
    exact hrec

/-- `PartialTree::verify` succeeds on any partial tree produced by
`batch_prove` over a tree satisfying the invariants. -/
theorem verify_ok {F : Type} [DecidableEq F]
    (h : F → F → F) (d : F) (N : Nat) (hN : 1 ≤ N)
    (t ptm : Map F) (g : Nat → F) (S : List Nat) (r : F)
    (htree : ∀ m, m < N → LevelOK h d N t g m)
    (hb : ∀ k ∈ S, k < 2 ^ N)
    (hAg : ∀ k ∈ S, ∀ m, m < N →
      AgreeAt h d t ptm m (anc m (2 ^ N - 1 + k)) ∧
      AgreeAt h d t ptm m (sibIdx (anc m (2 ^ N - 1 + k)))) :
    (PartialTree.verify N
      { tree := ptm, empty_hashes := ladder h d N, leaves := S, root := r }
      (liftH h)).2 = .ok () := by
  obtain ⟨fr, hfr, hmem, hpw⟩ := initFrontier_spec hN S []
  unfold PartialTree.verify
  simp only [hfr]
  rw [List.range_eq_range']
  apply verifyLevels_run h d N t ptm g S htree hb hAg (N - 1) 0 fr (by omega)
  · intro a
    simpa using hmem a
  · exact hpw List.Pairwise.nil

/-! ### Claim theorems -/

/-- C1: Partial round-trip.  For every tree `T` built by `new` from a
leaf map `M` with an (infallible) hasher, and every non-empty list `S`
of leaf slots inserted into `T`, the partial tree
`P = T.batch_prove(S)` exists (no panic), satisfies
`P.root == T.root()`, and `P.verify` under the same hasher succeeds. -/
theorem C1_partial_round_trip {F : Type} [DecidableEq F]
    (h : F → F → F) (d : F) (N : Nat) (M : Map F) (S : List Nat) (s : Smt F)
    (hN : 1 ≤ N)
    (hM : ∀ p ∈ M, p.1 < 2 ^ N)
    (hnd : (M.map Prod.fst).Nodup)
    (hnew : newSmt N (liftH h) M d = .ok s)
    (_hSne : S ≠ [])
    (hSins : ∀ k ∈ S, k ∈ M.map Prod.fst) :
    ∃ pt r, batchProve N s S = some pt ∧ Smt.root s = some r ∧
      pt.root = r ∧ (pt.verify N (liftH h)).2 = .ok () := by
  have hcheck : rlog2 (2 * nextPow2 M.length - 1) ≤ N := by
    by_contra hc
    unfold newSmt at hnew
    rw [if_neg hc] at hnew
    cases hnew
  have hlen := (heightCheck_iff N M.length).mp hcheck
  obtain ⟨t', hrun, hok, _, _⟩ := newSmt_run h d N hN M hlen hM hnd
  obtain rfl : s = ⟨t', ladder h d N⟩ :=
    Except.ok.inj (hnew.symm.trans hrun)
  have hbS : ∀ k ∈ S, k < 2 ^ N := by
    intro k hk
    obtain ⟨p, hp, rfl⟩ := List.mem_map.mp (hSins k hk)
    exact hM p hp
  obtain ⟨ptm, hbp, hSound, hAg⟩ := batchProve_spec h d N hN t' S hbS
  refine ⟨_, (mget t' 0).getD (emptyH h d (N - 1)), hbp, ?_, rfl, ?_⟩
  · unfold Smt.root
    rw [ladder_getLast h d (by omega : 0 < N)]
  · exact verify_ok h d N hN t' ptm (updG N M (fun _ => d)) S _ hok.1 hbS hAg

/-- Witness for C1 at a concrete instance: `F = Nat`,
`h a b = a + 2b + 1`, `N = 2`, leaves `{0 ↦ 5, 3 ↦ 7}`, `S = [3]`. -/
theorem C1_partial_round_trip_witness :
    ∃ pt r,
      batchProve 2 (Smt.mk [(0, 37), (2, 15), (1, 6), (6, 7), (3, 5)] [0, 1])
        [3] = some pt ∧
      Smt.root (Smt.mk [(0, 37), (2, 15), (1, 6), (6, 7), (3, 5)] [0, 1])
        = some r ∧
      pt.root = r ∧
      (pt.verify 2 (liftH (fun a b : Nat => a + 2 * b + 1))).2 = .ok () :=
  C1_partial_round_trip (fun a b : Nat => a + 2 * b + 1) 0 2
    [(0, 5), (3, 7)] [3] (Smt.mk [(0, 37), (2, 15), (1, 6), (6, 7), (3, 5)] [0, 1])
    (by omega) (by decide) (by decide) (by decide) (by decide) (by decide)

/-- C3: the outcome of `PartialTree::verify` does not depend on the
`root` field: replacing `root` by any digest `r` yields the same
verification result (success, bail, assertion failure, or panic); the
recomputed top of the frontier is never compared with `partial.root`.
(The zk journal — first component — does carry the root.) -/
theorem C3_verify_ignores_root {F : Type} [DecidableEq F] (N : Nat)
    (pt : PartialTree F) (r : F) (hasher : F → F → Option F) :
    (PartialTree.verify N { pt with root := r } hasher).2
      = (PartialTree.verify N pt hasher).2 := by
  cases pt
  rfl

/-- `generate_membership_path` always panics for `N ≥ 1`: the path
vector is created empty and the first `path[level] = …` write is out of
bounds. -/
theorem genPath_always_panics {F : Type} (N : Nat) (s : Smt F) (k : Nat)
    (hN : 1 ≤ N) : genMembershipPath N s k = none := by
  have h2N : (2:Nat) ≤ 2 ^ N := by
    calc (2:Nat) = 2 ^ 1 := by ring
    _ ≤ 2 ^ N := Nat.pow_le_pow_right (by omega) hN
  have hne : ¬ (toLastLevel k N = 0) := by
    unfold toLastLevel
    omega
  unfold genMembershipPath
  simp only [genPathGo, if_neg hne]
  cases s.empty_hashes.get? 0 with
  | none => rfl
  | some e => simp [setNth]

/-- C4: code bug.  The claim asserts single-leaf proof round-trip; in
the code `generate_membership_path` writes `path[level]` into an empty
`heapless::Vec` and panics on the very first level, so no path is ever
produced.  Evaluated here on the tree built by `new` from `{0 ↦ 5}`
(`F = Nat`, `h a b = a + 2b + 1`, `N = 2`): construction succeeds and
the path generation panics. -/
theorem C4_genPath_panics_concrete :
    newSmt 2 (liftH (fun a b : Nat => a + 2 * b + 1)) [(0, 5)] 0
      = .ok (Smt.mk [(0, 9), (1, 6), (3, 5)] [0, 1]) ∧
    genMembershipPath 2 (Smt.mk [(0, 9), (1, 6), (3, 5)] [0, 1]) 0 = none := by
  constructor
  · decide
  · decide

/-- C5 counterexample: at `N = 1` a map with `2 ≤ 2^N` entries must,
per the claim, be accepted, but `new` fails with the height-overflow
assertion. -/
theorem C5_counterexample :
    newSmt 1 (liftH (fun a b : Nat => a + 2 * b + 1)) [(0, 1), (1, 2)] 0
      = .error .heightOverflow := by
  decide

/-- C5 amended: `new` raises the height-overflow failure iff the leaf
map has more than `2^(N-1)` entries (truncated subtraction), not
`2^N`: the code measures the height of a tree with
`2 * next_power_of_two(len)` bottom nodes. -/
theorem C5_amended_overflow_iff {F : Type} [DecidableEq F] (N : Nat)
    (hasher : F → F → Option F) (M : Map F) (d : F) :
    newSmt N hasher M d = .error .heightOverflow ↔
      2 ^ (N - 1) < M.length := by
  unfold newSmt
  by_cases hc : rlog2 (2 * nextPow2 M.length - 1) ≤ N
  · rw [if_pos hc]
    have hlen := (heightCheck_iff N M.length).mp hc
    constructor
    · intro hcon
      exfalso
      cases hgen : genEmptyHashes hasher N d with
      | none =>
        simp only [hgen] at hcon
        injection hcon with hx
        exact absurd hx (by decide)
      | some eh =>
        simp only [hgen] at hcon
        exact insertBatch_no_overflow hcon
    · intro hcon
      omega
  · rw [if_neg hc]
    have hlen : ¬ M.length ≤ 2 ^ (N - 1) :=
      fun hx => hc ((heightCheck_iff N M.length).mpr hx)
    constructor
    · intro _
      omega
    · intro _
      rfl

/-- C8: `root()` returns the digest at node index 0 when materialized
and `empty_hashes[N-1]` (the last ladder element) otherwise; a tree
built by `new` from the empty map has no materialized root, so its
root is `empty_hashes[N-1]`. -/
theorem C8_root_query {F : Type} [DecidableEq F]
    (h : F → F → F) (d : F) (N : Nat) (hN : 1 ≤ N) :
    (∀ s : Smt F, s.empty_hashes.length = N →
      (∀ v, mget s.tree 0 = some v → Smt.root s = some v) ∧
      (mget s.tree 0 = none → Smt.root s = s.empty_hashes.get? (N - 1))) ∧
    (∃ t', newSmt N (liftH h) [] d = .ok ⟨t', ladder h d N⟩ ∧
      Smt.root ⟨t', ladder h d N⟩ = (ladder h d N).get? (N - 1) ∧
      (ladder h d N).get? (N - 1) = some (emptyH h d (N - 1))) := by
  constructor
  · intro s hlen
    have hidx : N - 1 < s.empty_hashes.length := by omega
    have hlast : s.empty_hashes.getLast? = s.empty_hashes[N - 1]? := by
      rw [List.getLast?_eq_getElem?, hlen]
    have hsome : s.empty_hashes[N - 1]?
        = some (s.empty_hashes.get ⟨N - 1, hidx⟩) :=
      List.getElem?_eq_getElem hidx
    constructor
    · intro v hv
      unfold Smt.root
      rw [hlast, hsome, hv]
      rfl
    · intro hv
      unfold Smt.root
      rw [hlast, hsome, hv, List.get?_eq_getElem?, hsome]
      rfl
  · obtain ⟨t', hrun, _, _, hnone⟩ :=
      newSmt_run h d N hN [] (by simp) (by simp) (by simp)
    refine ⟨t', hrun, ?_, ladder_get h d (by omega)⟩
    unfold Smt.root
    rw [ladder_getLast h d (by omega : 0 < N), hnone rfl,
      ladder_get h d (by omega : N - 1 < N)]
    rfl

/-- Witness for C8 at `F = Nat`, `N = 2`. -/
theorem C8_root_query_witness :
    Smt.root (Smt.mk [((0 : Nat), (5 : Nat))] [0, 1]) = some 5 ∧
    Smt.root (Smt.mk ([] : Map Nat) [0, 1]) = ([0, 1] : List Nat).get? 1 :=
  ⟨((C8_root_query (fun a b : Nat => a + 2 * b + 1) 0 2 (by omega)).1
      (Smt.mk [(0, 5)] [0, 1]) (by decide)).1 5 (by decide),
   ((C8_root_query (fun a b : Nat => a + 2 * b + 1) 0 2 (by omega)).1
      (Smt.mk [] [0, 1]) (by decide)).2 (by decide)⟩

/-- C9: `gen_empty_hashes` returns a ladder of length exactly `N`
whose head is the default leaf and whose entry `ℓ` is the hash of
entry `ℓ-1` with itself for `1 ≤ ℓ ≤ N-1`; it returns the hasher's
error (`none`) exactly when iterating the hash on the running default
fails. -/
theorem C9_gen_empty_hashes {F : Type} (hasher : F → F → Option F)
    (n : Nat) (d : F) :
    (∀ l, genEmptyHashes hasher n d = some l →
      l.length = n ∧ (0 < n → l.get? 0 = some d) ∧
      ∀ ℓ, 1 ≤ ℓ → ℓ < n → ∃ p q, l.get? (ℓ - 1) = some p ∧
        hasher p p = some q ∧ l.get? ℓ = some q) ∧
    (genEmptyHashes hasher n d = none ↔ hIter hasher n d = none) :=
  ⟨fun l hl => genEmptyHashes_spec hasher n d l hl,
   genEmptyHashes_none_iff hasher n d⟩

/-- Witness for C9 at `F = Nat`, `h a b = a + 2b + 1`, `N = 3`,
`d = 1`: the ladder is `[1, 4, 13]`. -/
theorem C9_gen_empty_hashes_witness :
    ([1, 4, 13] : List Nat).length = 3 ∧
    ([1, 4, 13] : List Nat).get? 0 = some 1 ∧
    ∃ p q, ([1, 4, 13] : List Nat).get? 1 = some p ∧
      liftH (fun a b : Nat => a + 2 * b + 1) p p = some q ∧
      ([1, 4, 13] : List Nat).get? 2 = some q := by
  have hspec := (C9_gen_empty_hashes
    (liftH (fun a b : Nat => a + 2 * b + 1)) 3 1).1 [1, 4, 13] (by decide)
  refine ⟨hspec.1, hspec.2.1 (by omega), ?_⟩
  obtain ⟨p, q, h1, h2, h3⟩ := hspec.2.2 2 (by omega) (by omega)
  exact ⟨p, q, h1, h2, h3⟩

/-- One `insert_batch` level only writes at indices below any bound
dominating the dirty set, and the outgoing dirty set stays below it. -/
theorem insertLevel_bounded {F : Type} [DecidableEq F]
    (h : F → F → F) (e : F) (B : Nat) :
    ∀ (idxs : List Nat) (t : Map F) (acc : List Nat),
      (∀ i ∈ idxs, i < B) → (∀ a ∈ acc, a < B) →
      ∃ t' out, insertLevel (liftH h) e t idxs acc = .ok (t', out) ∧
        (∀ j, B ≤ j → mget t' j = mget t j) ∧
        (∀ a ∈ out, a < B) := by
  intro idxs
  induction idxs with
  | nil =>
    intro t acc _ hacc
    exact ⟨t, acc, rfl, fun _ _ => rfl, hacc⟩
  | cons i rest ih =>
    intro t acc hb hacc
    have hi : i < B := hb i (List.mem_cons_self _ _)
    cases hp : parentIdx i with
    | none =>
      refine ⟨minsert t i (h ((mget t (leftChild i)).getD e)
        ((mget t (rightChild i)).getD e)), acc, ?_, ?_, hacc⟩
      · simp only [insertLevel, liftH, hp]
      · intro j hj
        exact mget_minsert_ne _ _ (by omega)
    | some p =>
      have hpB : p < B := by
        rcases child_cases hp with hc | hc <;> omega
      obtain ⟨t', out, hrun, hpre, hout⟩ :=
        ih (minsert t i (h ((mget t (leftChild i)).getD e)
            ((mget t (rightChild i)).getD e))) (sinsert p acc)
          (fun i' hi' => hb i' (List.mem_cons_of_mem _ hi'))
          (fun a ha => by
            rcases mem_sinsert.mp ha with rfl | ha
            · exact hpB
            · exact hacc a ha)
      refine ⟨t', out, ?_, ?_, hout⟩
      · simp only [insertLevel, liftH, hp]
        exact hrun
      · intro j hj
        rw [hpre j hj]
        exact mget_minsert_ne _ _ (by omega)

theorem insertLevels_bounded {F : Type} [DecidableEq F]
    (h : F → F → F) (eh : List F) (B : Nat) :
    ∀ (levels : List Nat) (t : Map F) (idxs : List Nat),
      (∀ lv ∈ levels, lv < eh.length) → (∀ i ∈ idxs, i < B) →
      ∃ t', insertLevels (liftH h) eh levels t idxs = .ok t' ∧
        (∀ j, B ≤ j → mget t' j = mget t j) := by
  intro levels
  induction levels with
  | nil =>
    intro t idxs _ _
    exact ⟨t, rfl, fun _ _ => rfl⟩
  | cons lv rest ih =>
    intro t idxs hlv hb
    have hlt : lv < eh.length := hlv lv (List.mem_cons_self _ _)
    have heh : eh.get? lv = some (eh.get ⟨lv, hlt⟩) := by
      rw [List.get?_eq_getElem?]
      exact List.getElem?_eq_getElem hlt
    obtain ⟨t₁, out, hrun₁, hpre₁, hout⟩ :=
      insertLevel_bounded h (eh.get ⟨lv, hlt⟩) B idxs t [] hb (by simp)
    obtain ⟨t', hrun', hpre'⟩ :=
      ih t₁ out (fun a ha => hlv a (List.mem_cons_of_mem _ ha)) hout
    refine ⟨t', ?_, ?_⟩
    · simp only [insertLevels, heh, hrun₁]
      exact hrun'
    · intro j hj
      rw [hpre' j hj]
      exact hpre₁ j hj

/-- C10 (implicit): neither `new` nor `insert_batch` validates leaf
slot indices against the `2^N` slot bound.  For any slot `k` with
`2^N ≤ k < 2^32`, `insert_batch` on a map containing `(k, v)` returns
success and writes `v` at node index `2^N - 1 + k`, which lies beyond
the leaf level of the height-`N` tree (its index is at least
`2^(N+1) - 1`). -/
theorem C10_no_slot_validation {F : Type} [DecidableEq F]
    (h : F → F → F) (N k : Nat) (v : F) (s : Smt F)
    (_hN : 1 ≤ N) (_hN32 : N < 32) (hk : 2 ^ N ≤ k) (_hk32 : k < 2 ^ 32)
    (hlen : s.empty_hashes.length = N) :
    ∃ s', insertBatch N (liftH h) s [(k, v)] = .ok s' ∧
      mget s'.tree (2 ^ N - 1 + k) = some v ∧
      2 ^ (N + 1) - 1 ≤ 2 ^ N - 1 + k := by
  have h1 : (1:Nat) ≤ 2 ^ N := Nat.one_le_two_pow
  have hpos : 0 < 2 ^ N - 1 + k := by omega
  have hrun1 : insertLeaves (2 ^ N - 1) s.tree [] [(k, v)]
      = .ok (minsert s.tree (2 ^ N - 1 + k) v, [(2 ^ N - 1 + k - 1) / 2]) := by
    simp only [insertLeaves, parentIdx_pos hpos]
    rfl
  obtain ⟨t', hrun2, hpre⟩ :=
    insertLevels_bounded h s.empty_hashes (2 ^ N - 1 + k) (List.range N)
      (minsert s.tree (2 ^ N - 1 + k) v) [(2 ^ N - 1 + k - 1) / 2]
      (by
        intro lv hlv
        rw [hlen]
        exact List.mem_range.mp hlv)
      (by
        intro i hi
        rcases List.mem_cons.mp hi with rfl | hc
        · omega
        · simp at hc)
  refine ⟨{ s with tree := t' }, ?_, ?_, ?_⟩
  · unfold insertBatch
    simp only [hrun1, hrun2]
  · show mget t' (2 ^ N - 1 + k) = some v
    rw [hpre _ (Nat.le_refl _)]
    exact mget_minsert_self _ _ _
  · have hpow : (2:Nat) ^ (N + 1) = 2 * 2 ^ N := by ring
    omega

/-- Witness for C10 at `F = Nat`, `N = 2`, slot `k = 4 ≥ 2^2`. -/
theorem C10_no_slot_validation_witness :
    ∃ s', insertBatch 2 (liftH (fun a b : Nat => a + 2 * b + 1))
        (Smt.mk [] [0, 1]) [(4, 9)] = .ok s' ∧
      mget s'.tree (2 ^ 2 - 1 + 4) = some 9 ∧
      2 ^ (2 + 1) - 1 ≤ 2 ^ 2 - 1 + 4 :=
  C10_no_slot_validation (fun a b : Nat => a + 2 * b + 1) 2 4 9
    (Smt.mk [] [0, 1]) (by omega) (by omega) (by decide) (by decide) (by decide)

/-! ### C6: insertion-order independence of the root -/

theorem mget_append {F : Type} (a b : Map F) (k : Nat) :
    mget (a ++ b) k =
      match mget a k with
      | some v => some v
      | none => mget b k := by
  induction a with
  | nil => rfl
  | cons p t ih =>
    obtain ⟨k', v'⟩ := p
    by_cases hk : k' = k
    · simp [mget, hk]
    · simpa [mget, hk] using ih

theorem foldG_all_nil {F : Type} (N : Nat) :
    ∀ (Bs : List (Map F)), (∀ b ∈ Bs, b = []) →
      ∀ (g : Nat → F) (j : Nat), foldG N Bs g j = g j := by
  intro Bs
  induction Bs with
  | nil => intro _ g j; rfl
  | cons b rest ih =>
    intro hall g j
    have hb : b = [] := hall b (List.mem_cons_self _ _)
    subst hb
    show foldG N rest (updG N [] g) j = g j
    rw [ih (fun b' hb' => hall b' (List.mem_cons_of_mem _ hb')) (updG N [] g) j]
    rfl

theorem foldG_combined {F : Type} (N : Nat) :
    ∀ (Bs : List (Map F)) (g : Nat → F) (j : Nat),
      foldG N Bs g j = (mget (combined Bs) (j + 1 - 2 ^ N)).getD (g j) := by
  intro Bs
  induction Bs with
  | nil => intro g j; rfl
  | cons b rest ih =>
    intro g j
    show foldG N rest (updG N b g) j
      = (mget (combined rest ++ b) (j + 1 - 2 ^ N)).getD (g j)
    rw [ih (updG N b g) j, mget_append]
    cases hm : mget (combined rest) (j + 1 - 2 ^ N) with
    | some v => rfl
    | none => rfl

theorem combined_mem_exists {F : Type} {p : Nat × F} :
    ∀ {Bs : List (Map F)}, p ∈ combined Bs → ∃ b ∈ Bs, p ∈ b := by
  intro Bs
  induction Bs with
  | nil => intro h; simp [combined] at h
  | cons b rest ih =>
    intro h
    simp only [combined] at h
    rcases List.mem_append.mp h with h1 | h2
    · obtain ⟨b', hb', hp⟩ := ih h1
      exact ⟨b', List.mem_cons_of_mem _ hb', hp⟩
    · exact ⟨b, List.mem_cons_self _ _, h2⟩

theorem mem_combined_of_mem {F : Type} {p : Nat × F} {b : Map F}
    (hp : p ∈ b) : ∀ {Bs : List (Map F)}, b ∈ Bs → p ∈ combined Bs := by
  intro Bs
  induction Bs with
  | nil => intro h; simp at h
  | cons b0 rest ih =>
    intro h
    simp only [combined]
    rcases List.mem_cons.mp h with rfl | hmem
    · exact List.mem_append_right _ hp
    · exact List.mem_append_left _ (ih hmem)

theorem combined_eq_nil {F : Type} :
    ∀ {Bs : List (Map F)}, (∀ b ∈ Bs, b = []) → combined Bs = [] := by
  intro Bs
  induction Bs with
  | nil => intro _; rfl
  | cons b rest ih =>
    intro hall
    have hb : b = [] := hall b (List.mem_cons_self _ _)
    simp [combined, hb,
      ih (fun b' hb' => hall b' (List.mem_cons_of_mem _ hb'))]

theorem applyBatches_run {F : Type} [DecidableEq F]
    (h : F → F → F) (d : F) (N : Nat) (hN : 1 ≤ N) :
    ∀ (Bs : List (Map F)) (t : Map F) (g : Nat → F),
      (∀ b ∈ Bs, (∀ p ∈ b, p.1 < 2 ^ N) ∧ (b.map Prod.fst).Nodup) →
      TreeOK h d N t g →
      ∃ t', applyBatches N (liftH h) ⟨t, ladder h d N⟩ Bs
          = .ok ⟨t', ladder h d N⟩ ∧
        TreeOK h d N t' (foldG N Bs g) ∧
        ((∀ b ∈ Bs, b = []) → mget t' 0 = mget t 0) ∧
        ((∃ b ∈ Bs, b ≠ []) →
          mget t' 0 = some (subH h (foldG N Bs g) N 0)) := by
  intro Bs
  induction Bs with
  | nil =>
    intro t g _ hT
    refine ⟨t, rfl, hT, fun _ => rfl, ?_⟩
    rintro ⟨b, hb, -⟩
    simp at hb
  | cons b rest ih =>
    intro t g hwf hT
    obtain ⟨t₁, hrun₁, hT₁, hS₁, hE₁⟩ :=
      insertBatch_correct h d N hN t g b hT
        (hwf b (List.mem_cons_self _ _)).1 (hwf b (List.mem_cons_self _ _)).2
    obtain ⟨t', hrun', hT', hE', hS'⟩ :=
      ih t₁ (updG N b g) (fun b' hb' => hwf b' (List.mem_cons_of_mem _ hb')) hT₁
    refine ⟨t', ?_, hT', ?_, ?_⟩
    · show applyBatches N (liftH h) ⟨t, ladder h d N⟩ (b :: rest)
        = .ok ⟨t', ladder h d N⟩
      simp only [applyBatches, hrun₁]
      exact hrun'
    · intro hall
      have hb0 : b = [] := hall b (List.mem_cons_self _ _)
      rw [hE' (fun b' hb' => hall b' (List.mem_cons_of_mem _ hb')), hE₁ hb0]
    · rintro ⟨b0, hb0, hne⟩
      rcases List.mem_cons.mp hb0 with rfl | hmem
      · by_cases hrest : ∃ b' ∈ rest, b' ≠ []
        · exact hS' hrest
        · push_neg at hrest
          rw [hE' hrest, hS₁ hne]
          congr 1
          exact subH_congr h N 0 (fun j _ _ =>
            (foldG_all_nil N rest hrest (updG N b0 g) j).symm)
      · exact hS' ⟨b0, hmem, hne⟩

/-- C6: insertion-order independence of the root.  Concretely, a tree
built by one `insert_batch` of `{0: v, 7: w}` and a tree built by
`insert_batch` of `{7: w}` followed by `insert_batch` of `{0: v}` have
equal roots; in general, starting from the freshly seeded empty tree,
the root after any sequence of batches depends only on the combined
slot-to-value mapping, not on how the insertions are split into
batches. -/
theorem C6_order_independent {F : Type} [DecidableEq F]
    (h : F → F → F) (d v w : F) (N : Nat) (hN : 3 ≤ N) :
    (∃ sA sB sB₂,
      newSmt N (liftH h) [(0, v), (7, w)] d = .ok sA ∧
      newSmt N (liftH h) [(7, w)] d = .ok sB ∧
      insertBatch N (liftH h) sB [(0, v)] = .ok sB₂ ∧
      Smt.root sA = Smt.root sB₂) ∧
    (∀ (Bs₁ Bs₂ : List (Map F)) (s₁ s₂ : Smt F),
      (∀ b ∈ Bs₁, (∀ p ∈ b, p.1 < 2 ^ N) ∧ (b.map Prod.fst).Nodup) →
      (∀ b ∈ Bs₂, (∀ p ∈ b, p.1 < 2 ^ N) ∧ (b.map Prod.fst).Nodup) →
      applyBatches N (liftH h) ⟨[], ladder h d N⟩ Bs₁ = .ok s₁ →
      applyBatches N (liftH h) ⟨[], ladder h d N⟩ Bs₂ = .ok s₂ →
      (∀ kk, mget (combined Bs₁) kk = mget (combined Bs₂) kk) →
      Smt.root s₁ = Smt.root s₂) := by
  have hN1 : 1 ≤ N := by omega
  have hN0 : 0 < N := by omega
  have h8 : (8:Nat) ≤ 2 ^ N := by
    calc (8:Nat) = 2 ^ 3 := by norm_num
    _ ≤ 2 ^ N := Nat.pow_le_pow_right (by omega) hN
  have h4 : (4:Nat) ≤ 2 ^ (N - 1) := by
    calc (4:Nat) = 2 ^ 2 := by norm_num
    _ ≤ 2 ^ (N - 1) := Nat.pow_le_pow_right (by omega) (by omega)
  constructor
  · -- concrete T_A vs T_B scenario
    have hM_A : ∀ p ∈ ([(0, v), (7, w)] : Map F), p.1 < 2 ^ N := by
      intro p hp
      simp only [List.mem_cons, List.not_mem_nil, or_false] at hp
      rcases hp with rfl | rfl
      · show (0:Nat) < 2 ^ N; omega
      · show (7:Nat) < 2 ^ N; omega
    have hnd_A : (([(0, v), (7, w)] : Map F).map Prod.fst).Nodup := by
      show ([0, 7] : List Nat).Nodup
      decide
    obtain ⟨tA, hrunA, _, hSA, _⟩ :=
      newSmt_run h d N hN1 [(0, v), (7, w)]
        (by show 2 ≤ 2 ^ (N - 1); omega) hM_A hnd_A
    have hM_B : ∀ p ∈ ([(7, w)] : Map F), p.1 < 2 ^ N := by
      intro p hp
      simp only [List.mem_cons, List.not_mem_nil, or_false] at hp
      obtain rfl := hp
      show (7:Nat) < 2 ^ N; omega
    have hnd_B : (([(7, w)] : Map F).map Prod.fst).Nodup := by
      show ([7] : List Nat).Nodup
      decide
    obtain ⟨tB, hrunB, hTB, _, _⟩ :=
      newSmt_run h d N hN1 [(7, w)]
        (by show 1 ≤ 2 ^ (N - 1); omega) hM_B hnd_B
    have hM_B2 : ∀ p ∈ ([(0, v)] : Map F), p.1 < 2 ^ N := by
      intro p hp
      simp only [List.mem_cons, List.not_mem_nil, or_false] at hp
      obtain rfl := hp
      show (0:Nat) < 2 ^ N; omega
    have hnd_B2 : (([(0, v)] : Map F).map Prod.fst).Nodup := by
      show ([0] : List Nat).Nodup
      decide
    obtain ⟨tB₂, hrunB₂, _, hSB₂, _⟩ :=
      insertBatch_correct h d N hN1 tB (updG N [(7, w)] (fun _ => d)) [(0, v)]
        hTB hM_B2 hnd_B2
    refine ⟨⟨tA, ladder h d N⟩, ⟨tB, ladder h d N⟩, ⟨tB₂, ladder h d N⟩,
      hrunA, hrunB, hrunB₂, ?_⟩
    have hrootA : Smt.root ⟨tA, ladder h d N⟩
        = some (subH h (updG N [(0, v), (7, w)] (fun _ => d)) N 0) := by
      simp only [Smt.root, ladder_getLast h d hN0, hSA (by simp),
        Option.getD_some]
    have hrootB₂ : Smt.root ⟨tB₂, ladder h d N⟩
        = some (subH h (updG N [(0, v)]
            (updG N [(7, w)] (fun _ => d))) N 0) := by
      simp only [Smt.root, ladder_getLast h d hN0, hSB₂ (by simp),
        Option.getD_some]
    have hpt : ∀ j, updG N ([(0, v), (7, w)] : Map F) (fun _ => d) j
        = updG N [(0, v)] (updG N [(7, w)] (fun _ => d)) j := by
      intro j
      simp only [updG, mget]
      by_cases h0 : (0:Nat) = j + 1 - 2 ^ N
      · rw [if_pos h0, if_pos h0]
        rfl
      · rw [if_neg h0, if_neg h0]
        rfl
    rw [hrootA, hrootB₂]
    exact congrArg some (subH_congr h N 0 (fun j _ _ => hpt j))
  · -- general clause: root depends only on the combined slot map
    intro Bs₁ Bs₂ s₁ s₂ hwf₁ hwf₂ hrun₁ hrun₂ hmeq
    obtain ⟨t₁', hr₁, _, hE₁, hS₁⟩ :=
      applyBatches_run h d N hN1 Bs₁ [] (fun _ => d) hwf₁ (TreeOK_empty h d N)
    obtain ⟨t₂', hr₂, _, hE₂, hS₂⟩ :=
      applyBatches_run h d N hN1 Bs₂ [] (fun _ => d) hwf₂ (TreeOK_empty h d N)
    obtain rfl : (⟨t₁', ladder h d N⟩ : Smt F) = s₁ :=
      Except.ok.inj (hr₁.symm.trans hrun₁)
    obtain rfl : (⟨t₂', ladder h d N⟩ : Smt F) = s₂ :=
      Except.ok.inj (hr₂.symm.trans hrun₂)
    by_cases hall : ∀ b ∈ Bs₁, b = []
    · have hall₂ : ∀ b ∈ Bs₂, b = [] := by
        intro b hb
        by_contra hne
        obtain ⟨p, brest, rfl⟩ : ∃ p brest, b = p :: brest := by
          cases b with
          | nil => exact absurd rfl hne
          | cons p brest => exact ⟨p, brest, rfl⟩
        obtain ⟨k, u⟩ := p
        have hpc : ((k, u) : Nat × F) ∈ combined Bs₂ :=
          mem_combined_of_mem (List.mem_cons_self _ _) hb
        have hsome : (mget (combined Bs₂) k).isSome := mget_isSome_of_mem hpc
        rw [← hmeq k, combined_eq_nil hall] at hsome
        simp [mget] at hsome
      simp only [Smt.root, ladder_getLast h d hN0, hE₁ hall, hE₂ hall₂]
    · push_neg at hall
      obtain ⟨b, hb, hbne⟩ := hall
      have hS₁' := hS₁ ⟨b, hb, hbne⟩
      obtain ⟨p, brest, rfl⟩ : ∃ p brest, b = p :: brest := by
        cases b with
        | nil => exact absurd rfl hbne
        | cons p brest => exact ⟨p, brest, rfl⟩
      obtain ⟨k, u⟩ := p
      have hpc : ((k, u) : Nat × F) ∈ combined Bs₁ :=
        mem_combined_of_mem (List.mem_cons_self _ _) hb
      have hsome : (mget (combined Bs₁) k).isSome := mget_isSome_of_mem hpc
      rw [hmeq k] at hsome
      obtain ⟨u₂, hu₂⟩ := Option.isSome_iff_exists.mp hsome
      obtain ⟨b₂, hb₂, hpb₂⟩ := combined_mem_exists (mem_of_mget hu₂)
      have hS₂' := hS₂ ⟨b₂, hb₂, List.ne_nil_of_mem hpb₂⟩
      simp only [Smt.root, ladder_getLast h d hN0, hS₁', hS₂',
        Option.getD_some]
      have hpt : ∀ j, foldG N Bs₁ (fun _ => d) j
          = foldG N Bs₂ (fun _ => d) j := by
        intro j
        rw [foldG_combined N Bs₁ (fun _ => d) j,
          foldG_combined N Bs₂ (fun _ => d) j, hmeq (j + 1 - 2 ^ N)]
      exact congrArg some (subH_congr h N 0 (fun j _ _ => hpt j))

/-- Witness for C6 at `F = Nat`, `N = 3`, `v = 11`, `w = 22`. -/
theorem C6_order_independent_witness :
    ∃ sA sB sB₂,
      newSmt 3 (liftH (fun a b : Nat => a + 2 * b + 1)) [(0, 11), (7, 22)] 0
        = .ok sA ∧
      newSmt 3 (liftH (fun a b : Nat => a + 2 * b + 1)) [(7, 22)] 0
        = .ok sB ∧
      insertBatch 3 (liftH (fun a b : Nat => a + 2 * b + 1)) sB [(0, 11)]
        = .ok sB₂ ∧
      Smt.root sA = Smt.root sB₂ :=
  (C6_order_independent (fun a b : Nat => a + 2 * b + 1) 0 11 22 3
    (by omega)).1

/-! ### C7: minimality of the partial proofs -/

theorem get?_some_lt {α : Type} : ∀ (l : List α) (i : Nat) (e : α),
    l.get? i = some e → i < l.length := by
  intro l
  induction l with
  | nil => intro i e h; simp [List.get?] at h
  | cons a t ih =>
    intro i e h
    cases i with
    | zero => exact Nat.succ_pos _
    | succ i =>
      simp only [List.get?] at h
      exact Nat.succ_lt_succ (ih i e h)

theorem log2_inDepth (j : Nat) : inDepth (Nat.log2 (j + 1)) j := by
  constructor
  · rw [Nat.log2_eq_log_two]
    exact Nat.pow_log_le_self 2 (by omega)
  · rw [Nat.log2_eq_log_two]
    exact Nat.lt_pow_succ_log_self (by omega) (j + 1)

theorem GuardOK_proveStep {F : Type} [DecidableEq F] {eh : List F} {NN : Nat}
    {t pt : Map F} {e : F} {node level : Nat}
    (hG : GuardOK eh NN pt) (hlev : level < NN)
    (heh : eh.get? level = some e)
    (hdn : inDepth (NN - level) node)
    (hds : inDepth (NN - level) (sibIdx node)) :
    GuardOK eh NN (proveStep t pt e node) := by
  have hone : ∀ (j : Nat), inDepth (NN - level) j → ∀ (pt' : Map F),
      GuardOK eh NN pt' → (mget t j).getD e ≠ e →
      GuardOK eh NN (minsert pt' j ((mget t j).getD e)) := by
    intro j hdj pt' hG' hne j' v' hget
    by_cases hj : j = j'
    · subst hj
      rw [mget_minsert_self] at hget
      obtain rfl := Option.some.inj hget
      exact ⟨level, e, hlev, hdj, heh, hne⟩
    · rw [mget_minsert_ne _ _ hj] at hget
      exact hG' j' v' hget
  unfold proveStep
  by_cases h2 : (mget t (sibIdx node)).getD e ≠ e
  · rw [if_pos h2]
    by_cases h1 : (mget t node).getD e ≠ e
    · rw [if_pos h1]
      exact hone _ hds _ (hone _ hdn _ hG h1) h2
    · rw [if_neg h1]
      exact hone _ hds _ hG h2
  · rw [if_neg h2]
    by_cases h1 : (mget t node).getD e ≠ e
    · rw [if_pos h1]
      exact hone _ hdn _ hG h1
    · rw [if_neg h1]
      exact hG

theorem walkF_guard {F : Type} [DecidableEq F] (NN : Nat) (t : Map F)
    (eh : List F) :
    ∀ (fuel node level : Nat) (pt pt' : Map F),
      walkF t eh fuel pt node level = some pt' →
      inDepth (NN - level) node → level ≤ NN →
      GuardOK eh NN pt → GuardOK eh NN pt' := by
  intro fuel
  induction fuel with
  | zero =>
    intro node level pt pt' hrun _ _ hG
    by_cases hn : node = 0
    · simp only [walkF, if_pos hn] at hrun
      obtain rfl := Option.some.inj hrun
      exact hG
    · simp only [walkF, if_neg hn] at hrun
      exact Option.noConfusion hrun
  | succ fuel ih =>
    intro node level pt pt' hrun hdep hlevN hG
    by_cases hn : node = 0
    · simp only [walkF, if_pos hn] at hrun
      obtain rfl := Option.some.inj hrun
      exact hG
    · have hDpos : 1 ≤ NN - level := by
        by_contra hc
        have h0 : NN - level = 0 := by omega
        rw [h0] at hdep
        obtain ⟨_, hb⟩ := hdep
        exact hn (by omega)
      have hlev : level < NN := by omega
      cases heh : eh.get? level with
      | none =>
        simp only [walkF, if_neg hn, heh] at hrun
        exact Option.noConfusion hrun
      | some e =>
        rw [walkF_step t eh fuel pt node level hn e heh] at hrun
        obtain ⟨D, hD⟩ : ∃ D, NN - level = D + 1 := ⟨NN - level - 1, by omega⟩
        have hdn' : inDepth (D + 1) node := hD ▸ hdep
        have hds : inDepth (NN - level) (sibIdx node) := hD ▸ inDepth_sib hdn'
        have hpar : inDepth (NN - (level + 1)) ((node - 1) / 2) := by
          have := inDepth_parent hdn'
          have heq : NN - (level + 1) = D := by omega
          rwa [heq]
        exact ih ((node - 1) / 2) (level + 1) _ pt' hrun hpar (by omega)
          (GuardOK_proveStep hG hlev heh hdep hds)

theorem walkF_levels_le {F : Type} [DecidableEq F] (t : Map F)
    (eh : List F) :
    ∀ (fuel node level : Nat) (pt pt' : Map F),
      walkF t eh fuel pt node level = some pt' →
      ∀ D, inDepth D node → 1 ≤ D → level + D ≤ eh.length := by
  intro fuel
  induction fuel with
  | zero =>
    intro node level pt pt' hrun D hdep hD
    have hn : node ≠ 0 := by
      intro hc
      subst hc
      have := inDepth_zero_iff.mp hdep
      omega
    simp only [walkF, if_neg hn] at hrun
    exact Option.noConfusion hrun
  | succ fuel ih =>
    intro node level pt pt' hrun D hdep hD
    have hn : node ≠ 0 := by
      intro hc
      subst hc
      have := inDepth_zero_iff.mp hdep
      omega
    cases heh : eh.get? level with
    | none =>
      simp only [walkF, if_neg hn, heh] at hrun
      exact Option.noConfusion hrun
    | some e =>
      have hlt : level < eh.length := get?_some_lt eh level e heh
      rw [walkF_step t eh fuel pt node level hn e heh] at hrun
      by_cases hD1 : D = 1
      · omega
      · obtain ⟨D', hD'⟩ : ∃ D', D = D' + 1 := ⟨D - 1, by omega⟩
        have hdn' : inDepth (D' + 1) node := hD' ▸ hdep
        have hpar : inDepth D' ((node - 1) / 2) := inDepth_parent hdn'
        have := ih ((node - 1) / 2) (level + 1) _ pt' hrun D' hpar (by omega)
        omega

theorem walkAll_guard {F : Type} [DecidableEq F] (NN : Nat) (hN : 1 ≤ NN)
    (t : Map F) (eh : List F) (hlen : eh.length = NN) :
    ∀ (S : List Nat) (pt pt' : Map F),
      walkAll NN t eh pt S = some pt' →
      GuardOK eh NN pt → GuardOK eh NN pt' := by
  intro S
  induction S with
  | nil =>
    intro pt pt' hrun hG
    obtain rfl := Option.some.inj hrun
    exact hG
  | cons k rest ih =>
    intro pt pt' hrun hG
    cases hw : walkF t eh (toLastLevel k NN + 1) pt (toLastLevel k NN) 0 with
    | none =>
      simp only [walkAll, hw] at hrun
      exact Option.noConfusion hrun
    | some pt₂ =>
      simp only [walkAll, hw] at hrun
      have h1p : (1:Nat) ≤ 2 ^ NN := Nat.one_le_two_pow
      have h2p : (2:Nat) ≤ 2 ^ NN := by
        calc (2:Nat) = 2 ^ 1 := by norm_num
        _ ≤ 2 ^ NN := Nat.pow_le_pow_right (by omega) hN
      have hti : toLastLevel k NN = 2 ^ NN - 1 + k := by
        unfold toLastLevel
        omega
      have hdepD : inDepth (Nat.log2 (toLastLevel k NN + 1))
          (toLastLevel k NN) := log2_inDepth _
      have hD1 : 1 ≤ Nat.log2 (toLastLevel k NN + 1) := by
        rw [Nat.log2_eq_log_two]
        refine (Nat.pow_le_iff_le_log (by omega) (by omega)).mp ?_
        show 2 ^ 1 ≤ toLastLevel k NN + 1
        rw [hti]
        omega
      have hDle := walkF_levels_le t eh _ (toLastLevel k NN) 0 pt pt₂ hw
        (Nat.log2 (toLastLevel k NN + 1)) hdepD hD1
      rw [hlen, hti] at hDle
      have hk : k < 2 ^ NN := by
        have hup : toLastLevel k NN + 1
            < 2 ^ (Nat.log2 (toLastLevel k NN + 1) + 1) := hdepD.2
        rw [hti] at hup
        have hmono : 2 ^ (Nat.log2 (2 ^ NN - 1 + k + 1) + 1)
            ≤ 2 ^ (NN + 1) := Nat.pow_le_pow_right (by omega) (by omega)
        have hpow : (2:Nat) ^ (NN + 1) = 2 * 2 ^ NN := by ring
        omega
      have hdleaf : inDepth (NN - 0) (toLastLevel k NN) := by
        rw [hti]
        have h00 : NN - 0 = NN := by omega
        rw [h00]
        exact leaf_inDepth hk
      exact ih pt₂ pt' hrun
        (walkF_guard NN t eh _ (toLastLevel k NN) 0 pt pt₂ hw hdleaf
          (by omega) hG)

/-- C7: minimality of partial proofs.  Every digest recorded in the
partial map produced by `batch_prove` differs from the empty hash at
its node's level: if `mget pt.tree j = some v` then `v` is distinct
from the ladder entry `empty_hashes[N - log2(j+1)]` appropriate to the
depth of node `j`. -/
theorem C7_minimality {F : Type} [DecidableEq F]
    (N : Nat) (s : Smt F) (S : List Nat) (pt : PartialTree F)
    (hlen : s.empty_hashes.length = N)
    (hrun : batchProve N s S = some pt) :
    ∀ j v, mget pt.tree j = some v →
      ∃ e, pt.empty_hashes.get? (N - flog2 (j + 1)) = some e ∧ v ≠ e := by
  cases hroot : Smt.root s with
  | none =>
    rw [show batchProve N s S = none from by
      simp only [batchProve, hroot]] at hrun
    exact Option.noConfusion hrun
  | some r =>
    cases hwalk : walkAll N s.tree s.empty_hashes [] S with
    | none =>
      rw [show batchProve N s S = none from by
        simp only [batchProve, hroot, hwalk]] at hrun
      exact Option.noConfusion hrun
    | some ptm =>
      have hbp : batchProve N s S
          = some { tree := ptm, empty_hashes := s.empty_hashes, leaves := S, root := r } := by
        simp only [batchProve, hroot, hwalk]
      rw [hbp] at hrun
      have hpt := (Option.some.inj hrun).symm
      have hN : 1 ≤ N := by
        by_contra hc
        have h0 : N = 0 := by omega
        have hnil : s.empty_hashes = [] :=
          List.eq_nil_of_length_eq_zero (h0 ▸ hlen)
        unfold Smt.root at hroot
        rw [hnil] at hroot
        simp at hroot
      have hG : GuardOK s.empty_hashes N ptm :=
        walkAll_guard N hN s.tree s.empty_hashes hlen S [] ptm hwalk
          (fun j v hget => by simp [mget] at hget)
      intro j v hget
      rw [hpt] at hget
      obtain ⟨ℓ, e, hℓ, hdj, heq, hne⟩ := hG j v hget
      have hdj2 : inDepth (Nat.log2 (j + 1)) j := log2_inDepth j
      have huniq : N - ℓ = Nat.log2 (j + 1) :=
        inDepth_unique (x := j + 1) hdj hdj2
      have hflog : flog2 (j + 1) = Nat.log2 (j + 1) := flog2_eq_log2 (j + 1)
      have hNl : N - flog2 (j + 1) = ℓ := by omega
      rw [hpt]
      refine ⟨e, ?_, hne⟩
      show s.empty_hashes.get? (N - flog2 (j + 1)) = some e
      rw [hNl]
      exact heq

/-- Witness for C7 at `F = Nat`, `N = 2`: the materialized entry
`(3, 9)` of the produced partial tree differs from the level-0 ladder
entry `4`. -/
theorem C7_minimality_witness :
    ∃ e, (PartialTree.mk [(3, 9)] [4, 6] [0] 6).empty_hashes.get?
        (2 - flog2 (3 + 1)) = some e ∧ (9:Nat) ≠ e :=
  C7_minimality 2 (Smt.mk [(3, 9)] [4, 6]) [0]
    (PartialTree.mk [(3, 9)] [4, 6] [0] 6) (by decide) (by decide)
    3 9 (by decide)

/-! ### C2: the scenario-3 root flip -/

theorem scen1_results_helper :
    scen1Result = some (Except.ok ()) ∧
    scen1FlippedResult = some (Except.ok ()) := by
  have hM : ∀ p ∈ scen1Leaves, p.1 < 2 ^ 32 := by decide
  have hnd : (scen1Leaves.map Prod.fst).Nodup := by decide
  have hlen : scen1Leaves.length ≤ 2 ^ (32 - 1) := by decide
  obtain ⟨t, hrun, hok, _, _⟩ :=
    newSmt_run shaH zero32 32 (by omega) scen1Leaves hlen hM hnd
  have hb : ∀ k ∈ [5], k < 2 ^ 32 := by decide
  obtain ⟨ptm, hbp, _, hAg⟩ :=
    batchProve_spec shaH zero32 32 (by omega) t [5] hb
  have hver := verify_ok shaH zero32 32 (by omega) t ptm
    (updG 32 scen1Leaves (fun _ => zero32)) [5]
    ((mget t 0).getD (emptyH shaH zero32 (32 - 1))) hok.1 hb hAg
  have hverF := verify_ok shaH zero32 32 (by omega) t ptm
    (updG 32 scen1Leaves (fun _ => zero32)) [5]
    (flipLastByte ((mget t 0).getD (emptyH shaH zero32 (32 - 1)))) hok.1 hb hAg
  constructor
  · simp only [scen1Result, hrun, hbp]
    exact congrArg some hver
  · simp only [scen1FlippedResult, hrun, hbp]
    exact congrArg some hverF

/-- C2: counterexample to the claimed behaviour.  In the concrete
SHA-256 scenario (default leaf `00…00`, `N = 32`, slots `0..9`,
`batch_prove([5])`), flipping the last byte of the partial tree's
`root` does not make `verify` fail with `HashMismatch`: the
verification still returns success. -/
theorem C2_counterexample :
    scen1FlippedResult = some (Except.ok ()) ∧
    scen1FlippedResult ≠ some (Except.error MErr.hashMismatch) := by
  refine ⟨scen1_results_helper.2, ?_⟩
  rw [scen1_results_helper.2]
  decide

/-- C2 (amended): flipping the last byte of `root` has no effect on the
outcome of `verify` — the verification pass never reads the `root`
field — and the scenario-2 partial tree still verifies successfully
after the flip. -/
theorem C2_flip_root_amended :
    scen1FlippedResult = scen1Result ∧
    scen1Result = some (Except.ok ()) := by
  refine ⟨?_, scen1_results_helper.1⟩
  rw [scen1_results_helper.2, scen1_results_helper.1]

end SparseRisc0
